import Mathlib

/-!
Verification of the SUMAC supermatrix constructor (`supermatrix.py`).

The Python code is shallowly embedded: strings become `List Char`, the
`Otu` class becomes a structure with append-style `update`, the dictionary
of OTUs becomes an insertion-ordered association list, and every Python
statement that can raise (`IndexError` on a short description,
`KeyError` on a missing dictionary key, `NameError` on the unbound
`loci_length` / `matrix_length` locals, `ZeroDivisionError` in the
statistics report) is modelled with `Except`.
-/

set_option autoImplicit false

/-- Python strings, modelled as lists of characters. -/
abbrev Str := List Char

/-- One FASTA record as consumed by the builder: the free-text description
line and the (already aligned) sequence. -/
structure SRecord where
  description : Str
  seq : Str
deriving DecidableEq

/-- The runtime errors the embedded code can raise, mirroring the Python
exceptions that the corresponding statements can throw. -/
inductive PyErr where
  | indexError
  | keyError
  | nameError
  | zeroDivisionError
deriving DecidableEq

/-- The `Otu` class: one taxon's accumulated row of the supermatrix plus
the parallel provenance lists. -/
structure Otu where
  name : Str
  sequence : Str
  accessions : List Str
  sequence_lengths : List Nat
deriving DecidableEq

/-- `Otu.update`: append one locus segment together with its accession and
its ungapped length (lines 155-161 of `supermatrix.py`). -/
def Otu.update (o : Otu) (s : Str) (accession : Str) (sequence_length : Nat) : Otu :=
  { o with sequence := o.sequence ++ s,
           accessions := o.accessions ++ [accession],
           sequence_lengths := o.sequence_lengths ++ [sequence_length] }

/-- A fresh `Otu(name)` as built by the constructor. -/
def freshOtu (k : Str) : Otu := ⟨k, [], [], []⟩

/-- Helper for `splitSpace`, accumulating the current token in reverse. -/
def splitSpaceAux : Str → Str → List Str
  | [], acc => [acc.reverse]
  | c :: rest, acc =>
    if c = ' ' then acc.reverse :: splitSpaceAux rest []
    else splitSpaceAux rest (c :: acc)

/-- Python `s.split(" ")`: split on every single space character, keeping
empty tokens between consecutive spaces. -/
def splitSpace (s : Str) : List Str := splitSpaceAux s []

/-- `record.description.split(" ")` (lines 38 and 50). -/
def descriptors (r : SRecord) : List Str := splitSpace r.description

/-- `descriptors[1] + " " + descriptors[2]`, the OTU key (lines 39 and 51);
`none` models the `IndexError` raised when fewer than 3 tokens exist. -/
def otuOf (r : SRecord) : Option Str :=
  match descriptors r with
  | _ :: t1 :: t2 :: _ => some (t1 ++ ' ' :: t2)
  | _ => none

/-- `descriptors[0]`, the accession token; `split(" ")` always yields at
least one token so this never raises. -/
def accOf (r : SRecord) : Str :=
  match descriptors r with
  | t :: _ => t
  | [] => []

/-- `Supermatrix.get_ungapped_length`: count of non-`'-'` characters. -/
def get_ungapped_length (s : Str) : Nat := s.countP (fun c => decide (c ≠ '-'))

/-- Helper for `make_gaps`: the Python loop prepends one `'-'` per step. -/
def make_gapsAux : Nat → Str → Str
  | 0, g => g
  | n + 1, g => make_gapsAux n ('-' :: g)

/-- `Supermatrix.make_gaps`: a string of `length` gap characters. -/
def make_gaps (length : Nat) : Str := make_gapsAux length []

/-- The dictionary of OTUs, as an insertion-ordered association list
(Python dicts preserve insertion order). -/
abbrev OtuMap := List (Str × Otu)

/-- The keys of the OTU dictionary, in insertion order. -/
def keys (m : OtuMap) : List Str := m.map Prod.fst

/-- `otu in otus.keys()` / `otu in otus`. -/
def containsOtu (m : OtuMap) (k : Str) : Bool :=
  (keys m).any (fun s => decide (s = k))

/-- Dictionary lookup `otus[otu]` (first matching key). -/
def lookupOtu (m : OtuMap) (k : Str) : Option Otu :=
  match m with
  | [] => none
  | p :: rest => if p.1 = k then some p.2 else lookupOtu rest k

/-- In-place mutation `otus[otu].update(...)`: rewrite the value stored at
key `k`, leaving keys and order unchanged. -/
def updateOtu (m : OtuMap) (k : Str) (g : Otu → Otu) : OtuMap :=
  m.map (fun p => (p.1, if p.1 = k then g p.2 else p.2))

/-- Discovery pass, one record (lines 35-41): create a fresh `Otu` the
first time a taxon label is seen.  A description with fewer than 3 space
tokens raises `IndexError`. -/
def discoverRecord (m : OtuMap) (r : SRecord) : Except PyErr OtuMap :=
  match otuOf r with
  | none => .error .indexError
  | some k => .ok (if containsOtu m k then m else m ++ [(k, freshOtu k)])

/-- Discovery pass over the records of one file. -/
def discoverRecords : OtuMap → List SRecord → Except PyErr OtuMap
  | m, [] => .ok m
  | m, r :: rest =>
    match discoverRecord m r with
    | .error e => .error e
    | .ok m' => discoverRecords m' rest

/-- Discovery pass over all files. -/
def discoverFiles : OtuMap → List (List SRecord) → Except PyErr OtuMap
  | m, [] => .ok m
  | m, f :: rest =>
    match discoverRecords m f with
    | .error e => .error e
    | .ok m' => discoverFiles m' rest

/-- The full first pass of `Supermatrix.__init__` (lines 32-41). -/
def discover (files : List (List SRecord)) : Except PyErr OtuMap :=
  discoverFiles [] files

/-- Loop state of the per-file record loop of the merge pass: the OTU
dictionary, the `already_added` list, and the `loci_length` local
(`none` = still unbound). -/
structure FSt where
  otus : OtuMap
  already : List Str
  loci : Option Nat
deriving DecidableEq

/-- Merge pass, one record (lines 49-55): keep only the first record per
label (`already_added` guard), update the matching `Otu`, and assign
`loci_length = len(record.seq)` in every iteration. -/
def mergeRecord (st : FSt) (r : SRecord) : Except PyErr FSt :=
  match otuOf r with
  | none => .error .indexError
  | some k =>
    if k ∈ st.already then .ok ⟨st.otus, st.already, some r.seq.length⟩
    else if containsOtu st.otus k then
      .ok ⟨updateOtu st.otus k
             (fun o => o.update r.seq (accOf r) (get_ungapped_length r.seq)),
           st.already ++ [k], some r.seq.length⟩
    else .error .keyError

/-- Merge pass over the records of one file. -/
def mergeRecords : FSt → List SRecord → Except PyErr FSt
  | st, [] => .ok st
  | st, r :: rest =>
    match mergeRecord st r with
    | .error e => .error e
    | .ok st' => mergeRecords st' rest

/-- State between files of the merge pass: the dictionary, `total_length`,
and the `loci_length` local carried over from the previous file. -/
structure MSt where
  otus : OtuMap
  total : Nat
  loci : Option Nat
deriving DecidableEq

/-- The gap-fill applied to one OTU after a file (lines 58-60): if the
row is shorter than `total_length`, append `make_gaps(loci_length)` with
placeholder accession `"-"` and ungapped length `0`. -/
def postGap (T w : Nat) (o : Otu) : Otu :=
  if o.sequence.length < T then o.update (make_gaps w) ['-'] 0 else o

/-- Merge pass, one file (lines 45-60): run the record loop with a fresh
`already_added`, then `total_length += loci_length` (a `NameError` if
`loci_length` is still unbound), then gap-fill every OTU. -/
def mergeFile (st : MSt) (f : List SRecord) : Except PyErr MSt :=
  match mergeRecords ⟨st.otus, [], st.loci⟩ f with
  | .error e => .error e
  | .ok fst =>
    match fst.loci with
    | none => .error .nameError
    | some w =>
      .ok ⟨fst.otus.map (fun p => (p.1, postGap (st.total + w) w p.2)),
           st.total + w, some w⟩

/-- Merge pass over all files. -/
def mergeFiles : MSt → List (List SRecord) → Except PyErr MSt
  | st, [] => .ok st
  | st, f :: rest =>
    match mergeFile st f with
    | .error e => .error e
    | .ok st' => mergeFiles st' rest

/-- The whole of `Supermatrix.__init__` up to the write step: discovery
pass followed by the concatenation pass, returning the final dictionary
and `total_length`. -/
def build (files : List (List SRecord)) : Except PyErr (OtuMap × Nat) :=
  match discover files with
  | .error e => .error e
  | .ok m =>
    match mergeFiles ⟨m, 0, none⟩ files with
    | .error e => .error e
    | .ok st => .ok (st.otus, st.total)

/-- The builder state after the discovery pass and the first `n` files of
the merge pass. -/
def buildState (files : List (List SRecord)) (n : Nat) : Except PyErr MSt :=
  match discover files with
  | .error e => .error e
  | .ok m => mergeFiles ⟨m, 0, none⟩ (files.take n)

theorem Otu.update_sequence (o : Otu) (s a : Str) (n : Nat) :
    (o.update s a n).sequence = o.sequence ++ s := rfl

theorem Otu.update_accessions (o : Otu) (s a : Str) (n : Nat) :
    (o.update s a n).accessions = o.accessions ++ [a] := rfl

theorem Otu.update_sequence_lengths (o : Otu) (s a : Str) (n : Nat) :
    (o.update s a n).sequence_lengths = o.sequence_lengths ++ [n] := rfl

/-- The aligned width of a locus file, read off its first record. -/
def fileWidth : List SRecord → Nat
  | [] => 0
  | r :: _ => r.seq.length

/-- All records of a locus file share the file's aligned width. -/
def widthCons (f : List SRecord) : Prop := ∀ r ∈ f, r.seq.length = fileWidth f

instance (f : List SRecord) : Decidable (widthCons f) := by
  unfold widthCons; infer_instance

/-- Sanity check of the whole build against the worked scenario of the
spec (two loci, one taxon missing from the second). -/
theorem build_scenario_check :
    build [[⟨"AF1 Homo sapiens x".toList, "AC-T".toList⟩,
            ⟨"AF2 Mus musculus y".toList, "ACGA".toList⟩],
           [⟨"AF3 Homo sapiens z".toList, "TTT".toList⟩]] =
    .ok ([("Homo sapiens".toList,
            ⟨"Homo sapiens".toList, "AC-TTTT".toList,
             ["AF1".toList, "AF3".toList], [3, 3]⟩),
          ("Mus musculus".toList,
            ⟨"Mus musculus".toList, "ACGA---".toList,
             ["AF2".toList, ['-']], [4, 0]⟩)], 7) := by rfl

/-- Characters stripped by Python's default `str.rstrip`. -/
def pyWS (c : Char) : Bool :=
  c = ' ' || c = '\t' || c = '\n' || c = '\r' || c = '\x0b' || c = '\x0c'

/-- Python `line.rstrip()`: drop trailing whitespace. -/
def rstrip (s : Str) : Str := (s.reverse.dropWhile pyWS).reverse

/-- Helper for `chunks`, with the remaining length as structural fuel so
that the definition reduces in the kernel. -/
def chunksAux : Nat → Str → List Str
  | _, [] => []
  | 0, _ :: _ => []
  | fuel + 1, c :: rest => (c :: rest).take 80 :: chunksAux fuel ((c :: rest).drop 80)

/-- The write loop of lines 69-72: `sequence[i:i+80]` slices, one line per
iteration, none for an empty sequence. -/
def chunks (s : Str) : List Str := chunksAux s.length s

/-- The serialization step (lines 62-73): for every OTU in dictionary
order, a `"> "`-prefixed header line followed by the 80-column slices of
its concatenated sequence.  The result is the list of written lines. -/
def writeFasta (m : OtuMap) : List Str :=
  m.flatMap (fun p => ('>' :: ' ' :: p.1) :: chunks p.2.sequence)

/-- Cleaning Biopython applies to each sequence line: `rstrip()` on read,
then removal of every `' '` and `'\r'` before joining. -/
def cleanLine (l : Str) : Str :=
  (rstrip l).filter (fun c => decide (c ≠ ' ') && decide (c ≠ '\r'))

/-- Body of the Biopython FASTA parser (`SimpleFastaParser`): accumulate
cleaned sequence lines for the open record; a line whose first character
is `'>'` closes the open record and opens a new one with title
`line[1:].rstrip()`. -/
def parseFastaAux : List Str → Str → Str → List (Str × Str)
  | [], title, acc => [(title, acc)]
  | l :: rest, title, acc =>
    if l.head? = some '>' then (title, acc) :: parseFastaAux rest (rstrip l.tail) []
    else parseFastaAux rest title (acc ++ cleanLine l)

/-- `SeqIO.parse(file, "fasta")` on a file given as its list of lines:
skip to the first `'>'` line, then run the record loop.  Yields
`(title, sequence)` pairs. -/
def parseFasta : List Str → List (Str × Str)
  | [] => []
  | l :: rest =>
    if l.head? = some '>' then parseFastaAux rest (rstrip l.tail) []
    else parseFasta rest

/-- `'-'` count of a sequence, as in the statistics loop (lines 116-119). -/
def gapCount (s : Str) : Nat := s.countP (fun c => decide (c = '-'))

/-- Round-half-even of a rational to the nearest integer, the tie-breaking
Python's `round` uses. -/
def roundHalfEven (q : ℚ) : ℤ :=
  if q - (⌊q⌋ : ℚ) < 1 / 2 then ⌊q⌋
  else if 1 / 2 < q - (⌊q⌋ : ℚ) then ⌊q⌋ + 1
  else if ⌊q⌋ % 2 = 0 then ⌊q⌋ else ⌊q⌋ + 1

/-- Python `round(x, 2)`: round to the nearest hundredth. -/
def round2 (q : ℚ) : ℚ := (roundHalfEven (100 * q) : ℚ) / 100

/-- What `Supermatrix.print_data` computes: the per-record rounded gap
fractions, the record count, the matrix length and the overall rounded
gap fraction. -/
structure Report where
  pcts : List ℚ
  num_records : Nat
  matrix_length : Nat
  total_pct : ℚ
deriving DecidableEq

/-- The per-record loop of `print_data` (lines 113-122): each record with
an empty sequence raises `ZeroDivisionError` at the percentage print;
`matrix_length` is assigned only inside the loop. -/
def printDataLoop : List (Str × Str) → List ℚ → Nat → Nat → Option Nat →
    Except PyErr (List ℚ × Nat × Nat × Option Nat)
  | [], pcts, num, tg, ml => .ok (pcts, num, tg, ml)
  | (_, s) :: rest, pcts, num, tg, _ =>
    if s.length = 0 then .error .zeroDivisionError
    else printDataLoop rest
      (pcts ++ [round2 ((gapCount s : ℚ) / (s.length : ℚ))])
      (num + 1) (tg + gapCount s) (some s.length)

/-- `Supermatrix.print_data` (lines 110-125) on the parsed records of the
written file: per-record percentages, then the summary, which raises
`NameError` when no record was read and `ZeroDivisionError` when the
final division's denominator is zero. -/
def print_data (recs : List (Str × Str)) : Except PyErr Report :=
  match printDataLoop recs [] 0 0 none with
  | .error e => .error e
  | .ok (pcts, num, tg, ml) =>
    match ml with
    | none => .error .nameError
    | some L =>
      if L * num = 0 then .error .zeroDivisionError
      else .ok ⟨pcts, num, L, round2 ((tg : ℚ) / ((L * num : Nat) : ℚ))⟩

/-- Modelled from the spec's words for claim C7 only: Python `s.split()`
with no argument, i.e. tokens separated by runs of whitespace, empty
tokens dropped.  This is the "whitespace-separated tokens" reading of the
claim, to be compared with the source's `split(" ")` (`splitSpace`). -/
def wsTokensAux : Str → Str → List Str
  | [], acc => if acc.isEmpty then [] else [acc.reverse]
  | c :: rest, acc =>
    if pyWS c then
      if acc.isEmpty then wsTokensAux rest []
      else acc.reverse :: wsTokensAux rest []
    else wsTokensAux rest (c :: acc)

/-- Whitespace tokenization per the claim's words (Python `str.split()`). -/
def wsTokens (s : Str) : List Str := wsTokensAux s []

/-- Pure per-OTU projection of the record loop of one file: what happens
to the value stored at key `k` while the loop runs with `already_added`
state `a`. -/
def foldSpec : List SRecord → List Str → Str → Otu → Otu
  | [], _, _, o => o
  | r :: rest, a, k, o =>
    match otuOf r with
    | none => foldSpec rest a k o
    | some k0 =>
      if k0 ∈ a then foldSpec rest a k o
      else if k0 = k then
        foldSpec rest (a ++ [k0]) k (o.update r.seq (accOf r) (get_ungapped_length r.seq))
      else foldSpec rest (a ++ [k0]) k o

/-- The value of the `loci_length` local after the record loop of one
file, given its value before the file. -/
def lociFold (loci : Option Nat) (f : List SRecord) : Option Nat :=
  f.foldl (fun _ r => some r.seq.length) loci

theorem make_gapsAux_eq (n : Nat) : ∀ g, make_gapsAux n g = List.replicate n '-' ++ g := by
  induction n with
  | zero => intro g; rfl
  | succ n ih =>
    intro g
    rw [make_gapsAux, ih, List.replicate_succ']
    simp

theorem make_gaps_eq (n : Nat) : make_gaps n = List.replicate n '-' := by
  rw [make_gaps, make_gapsAux_eq]
  exact List.append_nil _

theorem make_gaps_length (n : Nat) : (make_gaps n).length = n := by
  rw [make_gaps_eq]
  exact List.length_replicate n '-'

theorem keys_append (m m' : OtuMap) : keys (m ++ m') = keys m ++ keys m' := by
  simp only [keys, List.map_append]

theorem keys_mapSnd (m : OtuMap) (g : Str → Otu → Otu) :
    keys (m.map (fun p => (p.1, g p.1 p.2))) = keys m := by
  simp [keys, List.map_map, Function.comp_def]

theorem containsOtu_eq_of_keys {m m' : OtuMap} (h : keys m' = keys m) (k : Str) :
    containsOtu m' k = containsOtu m k := by
  simp [containsOtu, h]

theorem containsOtu_iff_mem (m : OtuMap) (k : Str) :
    containsOtu m k = true ↔ k ∈ keys m := by
  simp [containsOtu, List.any_eq_true]

theorem updateOtu_eq_map (m : OtuMap) (k : Str) (g : Otu → Otu) :
    updateOtu m k g = m.map (fun p => (p.1, if p.1 = k then g p.2 else p.2)) := rfl

theorem lociFold_cons (loci : Option Nat) (r : SRecord) (f : List SRecord) :
    lociFold loci (r :: f) = lociFold (some r.seq.length) f := by
  simp [lociFold]

theorem foldSpec_cons_mem {r : SRecord} {k0 : Str} (hk : otuOf r = some k0)
    (rest : List SRecord) {a : List Str} (h : k0 ∈ a) (k : Str) (o : Otu) :
    foldSpec (r :: rest) a k o = foldSpec rest a k o := by
  rw [foldSpec, hk]
  simp [h]

theorem foldSpec_cons_new {r : SRecord} {k0 : Str} (hk : otuOf r = some k0)
    (rest : List SRecord) {a : List Str} (h : k0 ∉ a) (k : Str) (o : Otu) :
    foldSpec (r :: rest) a k o =
      if k0 = k then
        foldSpec rest (a ++ [k0]) k (o.update r.seq (accOf r) (get_ungapped_length r.seq))
      else foldSpec rest (a ++ [k0]) k o := by
  rw [foldSpec, hk]
  simp [h]

/-- Characterization of the record loop of one file: under well-formed
descriptions whose labels are all keys of the dictionary, the loop
succeeds, each stored OTU is transformed by `foldSpec`, and the
`loci_length` local is transformed by `lociFold`. -/
theorem mergeRecords_char :
    ∀ (f : List SRecord) (st : FSt),
    (∀ r ∈ f, ∃ k, otuOf r = some k ∧ containsOtu st.otus k = true) →
    ∃ a', mergeRecords st f =
      .ok ⟨st.otus.map (fun p => (p.1, foldSpec f st.already p.1 p.2)),
           a', lociFold st.loci f⟩ := by
  intro f
  induction f with
  | nil =>
    intro st _
    refine ⟨st.already, ?_⟩
    simp [mergeRecords, lociFold, foldSpec]
  | cons r rest ih =>
    intro st hwfc
    obtain ⟨k, hk, hcont⟩ := hwfc r (List.mem_cons_self r rest)
    by_cases hmem : k ∈ st.already
    · have hstep : mergeRecord st r = .ok ⟨st.otus, st.already, some r.seq.length⟩ := by
        simp [mergeRecord, hk, hmem]
      obtain ⟨a', ha'⟩ := ih ⟨st.otus, st.already, some r.seq.length⟩
        (fun r' hr' => hwfc r' (List.mem_cons_of_mem r hr'))
      dsimp only at ha'
      refine ⟨a', ?_⟩
      rw [mergeRecords, hstep]
      show mergeRecords ⟨st.otus, st.already, some r.seq.length⟩ rest = _
      rw [ha', lociFold_cons]
      refine congrArg Except.ok ?_
      refine congrArg (fun l => FSt.mk l a' (lociFold (some r.seq.length) rest)) ?_
      exact List.map_congr_left (fun p _ => by
        rw [foldSpec_cons_mem hk rest hmem])
    · have hstep : mergeRecord st r =
          .ok ⟨updateOtu st.otus k
                 (fun o => o.update r.seq (accOf r) (get_ungapped_length r.seq)),
               st.already ++ [k], some r.seq.length⟩ := by
        simp [mergeRecord, hk, hmem, hcont]
      have hkeys1 : keys (updateOtu st.otus k
          (fun o => o.update r.seq (accOf r) (get_ungapped_length r.seq))) = keys st.otus :=
        keys_mapSnd st.otus
          (fun s o => if s = k then o.update r.seq (accOf r) (get_ungapped_length r.seq) else o)
      obtain ⟨a', ha'⟩ := ih ⟨updateOtu st.otus k
          (fun o => o.update r.seq (accOf r) (get_ungapped_length r.seq)),
          st.already ++ [k], some r.seq.length⟩
        (fun r' hr' => by
          obtain ⟨k', hk', hc'⟩ := hwfc r' (List.mem_cons_of_mem r hr')
          refine ⟨k', hk', ?_⟩
          dsimp only
          rw [containsOtu_eq_of_keys hkeys1]
          exact hc')
      dsimp only at ha'
      refine ⟨a', ?_⟩
      rw [mergeRecords, hstep]
      show mergeRecords ⟨_, st.already ++ [k], some r.seq.length⟩ rest = _
      rw [ha', lociFold_cons]
      refine congrArg Except.ok ?_
      refine congrArg (fun l => FSt.mk l a' (lociFold (some r.seq.length) rest)) ?_
      rw [updateOtu_eq_map, List.map_map]
      refine List.map_congr_left (fun p _ => ?_)
      simp only [Function.comp_apply]
      rw [foldSpec_cons_new hk rest hmem]
      by_cases hpk : k = p.1
      · subst hpk
        simp
      · rw [if_neg hpk, if_neg (fun h => hpk (Eq.symm h))]

/-- A label already in `already_added` is never updated again. -/
theorem foldSpec_of_mem_already :
    ∀ (f : List SRecord) (a : List Str) (k : Str) (o : Otu), k ∈ a →
    foldSpec f a k o = o := by
  intro f
  induction f with
  | nil => intro a k o _; rfl
  | cons r rest ih =>
    intro a k o hmem
    cases heq : otuOf r with
    | none =>
      rw [foldSpec, heq]
      exact ih a k o hmem
    | some k0 =>
      by_cases h0 : k0 ∈ a
      · rw [foldSpec_cons_mem heq rest h0]
        exact ih a k o hmem
      · rw [foldSpec_cons_new heq rest h0]
        have hne : ¬ k0 = k := fun h => h0 (h ▸ hmem)
        rw [if_neg hne]
        exact ih (a ++ [k0]) k o (List.mem_append_left _ hmem)

/-- Case analysis on the per-OTU effect of one file's record loop: either
no record carries label `k` and the OTU is untouched, or the first such
record is merged with exactly one `update`. -/
theorem foldSpec_cases :
    ∀ (f : List SRecord) (a : List Str) (k : Str) (o : Otu), k ∉ a →
    (∀ r ∈ f, (otuOf r).isSome) →
    ((∀ r ∈ f, otuOf r ≠ some k) ∧ foldSpec f a k o = o) ∨
    (∃ r0, r0 ∈ f ∧ otuOf r0 = some k ∧
      foldSpec f a k o = o.update r0.seq (accOf r0) (get_ungapped_length r0.seq)) := by
  intro f
  induction f with
  | nil =>
    intro a k o _ _
    exact Or.inl ⟨fun r hr => absurd hr (List.not_mem_nil r), rfl⟩
  | cons r rest ih =>
    intro a k o ha hwf
    have hr0 : (otuOf r).isSome := hwf r (List.mem_cons_self r rest)
    obtain ⟨k0, hk0⟩ := Option.isSome_iff_exists.mp hr0
    by_cases h0 : k0 ∈ a
    · have hne : otuOf r ≠ some k := by
        rw [hk0]
        intro h
        exact ha (Option.some.inj h ▸ h0)
      rcases ih a k o ha (fun r' hr' => hwf r' (List.mem_cons_of_mem r hr')) with
        ⟨habs, heq⟩ | ⟨r1, hr1, hl1, heq⟩
      · refine Or.inl ⟨?_, by rw [foldSpec_cons_mem hk0 rest h0]; exact heq⟩
        intro r' hr'
        rcases List.mem_cons.mp hr' with h | h
        · exact h ▸ hne
        · exact habs r' h
      · exact Or.inr ⟨r1, List.mem_cons_of_mem r hr1, hl1, by
          rw [foldSpec_cons_mem hk0 rest h0]; exact heq⟩
    · by_cases hkk : k0 = k
      · subst hkk
        refine Or.inr ⟨r, List.mem_cons_self r rest, hk0, ?_⟩
        rw [foldSpec_cons_new hk0 rest h0, if_pos rfl]
        exact foldSpec_of_mem_already rest (a ++ [k0]) k0 _
          (List.mem_append_right _ (List.mem_singleton.mpr rfl))
      · have hka : k ∉ a ++ [k0] := by
          intro h
          rcases List.mem_append.mp h with h | h
          · exact ha h
          · exact hkk (List.mem_singleton.mp h).symm
        have hne : otuOf r ≠ some k := by
          rw [hk0]
          exact fun h => hkk (Option.some.inj h)
        rcases ih (a ++ [k0]) k o hka (fun r' hr' => hwf r' (List.mem_cons_of_mem r hr')) with
          ⟨habs, heq⟩ | ⟨r1, hr1, hl1, heq⟩
        · refine Or.inl ⟨?_, by rw [foldSpec_cons_new hk0 rest h0, if_neg hkk]; exact heq⟩
          intro r' hr'
          rcases List.mem_cons.mp hr' with h | h
          · exact h ▸ hne
          · exact habs r' h
        · exact Or.inr ⟨r1, List.mem_cons_of_mem r hr1, hl1, by
            rw [foldSpec_cons_new hk0 rest h0, if_neg hkk]; exact heq⟩

/-- If every record of a (non-empty) file has aligned width `W`, the
`loci_length` local ends the file at `W`. -/
theorem lociFold_of_width (W : Nat) :
    ∀ (f : List SRecord), f ≠ [] → (∀ r ∈ f, r.seq.length = W) →
    ∀ loci, lociFold loci f = some W := by
  intro f
  induction f with
  | nil => intro h; exact absurd rfl h
  | cons r rest ih =>
    intro _ hw loci
    rw [lociFold_cons]
    cases rest with
    | nil =>
      have := hw r (List.mem_cons_self r [])
      simp [lociFold, this]
    | cons r' rest' =>
      exact ih (by simp) (fun r'' hr'' => hw r'' (List.mem_cons_of_mem r hr'')) _

/-- Facts about the discovery pass over one file's records: keys only
grow, every record's label ends up as a key, new entries are fresh OTUs,
and key distinctness is preserved. -/
theorem discoverRecords_ok_props :
    ∀ (rs : List SRecord) (m m' : OtuMap), discoverRecords m rs = .ok m' →
    (∀ k, containsOtu m k = true → containsOtu m' k = true) ∧
    (∀ r ∈ rs, ∃ k, otuOf r = some k ∧ containsOtu m' k = true) ∧
    (∀ p ∈ m', p ∈ m ∨ p.2 = freshOtu p.1) ∧
    ((keys m).Nodup → (keys m').Nodup) := by
  intro rs
  induction rs with
  | nil =>
    intro m m' h
    cases h
    exact ⟨fun _ h => h, fun r hr => absurd hr (List.not_mem_nil r),
           fun p hp => Or.inl hp, fun h => h⟩
  | cons r rest ih =>
    intro m m' h
    rw [discoverRecords] at h
    cases hk : otuOf r with
    | none => rw [discoverRecord, hk] at h; cases h
    | some k =>
      rw [discoverRecord, hk] at h
      dsimp only at h
      by_cases hc : containsOtu m k = true
      · rw [if_pos hc] at h
        obtain ⟨h1, h2, h3, h4⟩ := ih m m' h
        refine ⟨h1, ?_, h3, h4⟩
        intro r' hr'
        rcases List.mem_cons.mp hr' with he | he
        · exact ⟨k, he ▸ hk, h1 k hc⟩
        · exact h2 r' he
      · rw [if_neg hc] at h
        obtain ⟨h1, h2, h3, h4⟩ := ih (m ++ [(k, freshOtu k)]) m' h
        have hmono : ∀ k', containsOtu m k' = true →
            containsOtu (m ++ [(k, freshOtu k)]) k' = true := by
          intro k' hk'
          rw [containsOtu_iff_mem] at hk' ⊢
          simp only [keys, List.map_append] at *
          exact List.mem_append_left _ hk'
        have hck : containsOtu (m ++ [(k, freshOtu k)]) k = true := by
          rw [containsOtu_iff_mem, keys_append]
          exact List.mem_append_right _ (List.mem_singleton.mpr rfl)
        refine ⟨fun k' hk' => h1 k' (hmono k' hk'), ?_, ?_, ?_⟩
        · intro r' hr'
          rcases List.mem_cons.mp hr' with he | he
          · exact ⟨k, he ▸ hk, h1 k hck⟩
          · exact h2 r' he
        · intro p hp
          rcases h3 p hp with hp' | hp'
          · rcases List.mem_append.mp hp' with hp'' | hp''
            · exact Or.inl hp''
            · right
              have : p = (k, freshOtu k) := List.mem_singleton.mp hp''
              rw [this]
          · exact Or.inr hp'
        · intro hnd
          apply h4
          have hkk : k ∉ keys m := by
            intro hmem
            exact hc ((containsOtu_iff_mem m k).mpr hmem)
          rw [keys_append]
          refine List.Nodup.append hnd (List.nodup_singleton k) ?_
          show (keys m).Disjoint [k]
          rw [List.disjoint_singleton]
          exact hkk

/-- The discovery pass over one file succeeds when every description has
at least three space tokens. -/
theorem discoverRecords_total :
    ∀ (rs : List SRecord) (m : OtuMap), (∀ r ∈ rs, (otuOf r).isSome) →
    ∃ m', discoverRecords m rs = .ok m' := by
  intro rs
  induction rs with
  | nil => intro m _; exact ⟨m, rfl⟩
  | cons r rest ih =>
    intro m hwf
    obtain ⟨k, hk⟩ := Option.isSome_iff_exists.mp (hwf r (List.mem_cons_self r rest))
    obtain ⟨m', hm'⟩ := ih (if containsOtu m k then m else m ++ [(k, freshOtu k)])
      (fun r' hr' => hwf r' (List.mem_cons_of_mem r hr'))
    refine ⟨m', ?_⟩
    rw [discoverRecords, discoverRecord, hk]
    exact hm'

/-- Success of the discovery pass over one file forces well-formed
descriptions. -/
theorem discoverRecords_ok_wf :
    ∀ (rs : List SRecord) (m m' : OtuMap), discoverRecords m rs = .ok m' →
    ∀ r ∈ rs, (otuOf r).isSome := by
  intro rs
  induction rs with
  | nil => intro m m' _ r hr; exact absurd hr (List.not_mem_nil r)
  | cons r rest ih =>
    intro m m' h r' hr'
    rw [discoverRecords] at h
    cases hk : otuOf r with
    | none => rw [discoverRecord, hk] at h; cases h
    | some k =>
      rw [discoverRecord, hk] at h
      rcases List.mem_cons.mp hr' with he | he
      · rw [he, hk]; rfl
      · exact ih _ m' h r' he

/-- `discoverRecords_ok_props` lifted to the pass over all files. -/
theorem discoverFiles_ok_props :
    ∀ (files : List (List SRecord)) (m m' : OtuMap), discoverFiles m files = .ok m' →
    (∀ k, containsOtu m k = true → containsOtu m' k = true) ∧
    (∀ f ∈ files, ∀ r ∈ f, ∃ k, otuOf r = some k ∧ containsOtu m' k = true) ∧
    (∀ p ∈ m', p ∈ m ∨ p.2 = freshOtu p.1) ∧
    ((keys m).Nodup → (keys m').Nodup) := by
  intro files
  induction files with
  | nil =>
    intro m m' h
    cases h
    exact ⟨fun _ h => h, fun f hf => absurd hf (List.not_mem_nil f),
           fun p hp => Or.inl hp, fun h => h⟩
  | cons f rest ih =>
    intro m m' h
    rw [discoverFiles] at h
    cases hf : discoverRecords m f with
    | error e => rw [hf] at h; cases h
    | ok m1 =>
      rw [hf] at h
      obtain ⟨g1, g2, g3, g4⟩ := discoverRecords_ok_props f m m1 hf
      obtain ⟨h1, h2, h3, h4⟩ := ih m1 m' h
      refine ⟨fun k hk => h1 k (g1 k hk), ?_, ?_, fun hnd => h4 (g4 hnd)⟩
      · intro f' hf' r hr
        rcases List.mem_cons.mp hf' with he | he
        · obtain ⟨k, hk, hc⟩ := g2 r (he ▸ hr)
          exact ⟨k, hk, h1 k hc⟩
        · exact h2 f' he r hr
      · intro p hp
        rcases h3 p hp with hp' | hp'
        · exact g3 p hp'
        · exact Or.inr hp'

/-- The discovery pass succeeds when every description in every file has
at least three space tokens. -/
theorem discoverFiles_total :
    ∀ (files : List (List SRecord)) (m : OtuMap),
    (∀ f ∈ files, ∀ r ∈ f, (otuOf r).isSome) →
    ∃ m', discoverFiles m files = .ok m' := by
  intro files
  induction files with
  | nil => intro m _; exact ⟨m, rfl⟩
  | cons f rest ih =>
    intro m hwf
    obtain ⟨m1, hm1⟩ := discoverRecords_total f m (hwf f (List.mem_cons_self f rest))
    obtain ⟨m', hm'⟩ := ih m1 (fun f' hf' => hwf f' (List.mem_cons_of_mem f hf'))
    refine ⟨m', ?_⟩
    rw [discoverFiles, hm1]
    exact hm'

/-- Success of the discovery pass forces well-formed descriptions
everywhere. -/
theorem discoverFiles_ok_wf :
    ∀ (files : List (List SRecord)) (m m' : OtuMap), discoverFiles m files = .ok m' →
    ∀ f ∈ files, ∀ r ∈ f, (otuOf r).isSome := by
  intro files
  induction files with
  | nil => intro m m' _ f hf; exact absurd hf (List.not_mem_nil f)
  | cons f rest ih =>
    intro m m' h f' hf' r hr
    rw [discoverFiles] at h
    cases hf : discoverRecords m f with
    | error e => rw [hf] at h; cases h
    | ok m1 =>
      rw [hf] at h
      rcases List.mem_cons.mp hf' with he | he
      · exact discoverRecords_ok_wf f m m1 hf r (he ▸ hr)
      · exact ih m1 m' h f' he r hr

/-- Summary facts about a successful discovery pass from the empty
dictionary. -/
theorem discover_ok_props (files : List (List SRecord)) (m0 : OtuMap)
    (h : discover files = .ok m0) :
    (∀ f ∈ files, ∀ r ∈ f, ∃ k, otuOf r = some k ∧ containsOtu m0 k = true) ∧
    (∀ p ∈ m0, p.2 = freshOtu p.1) ∧
    (keys m0).Nodup := by
  obtain ⟨h1, h2, h3, h4⟩ := discoverFiles_ok_props files [] m0 h
  refine ⟨h2, ?_, h4 List.nodup_nil⟩
  intro p hp
  rcases h3 p hp with hp' | hp'
  · exact absurd hp' (List.not_mem_nil p)
  · exact hp'

/-- Characterization of one whole file of the merge pass. -/
theorem mergeFile_char (st : MSt) (f : List SRecord) (w : Nat)
    (hwfc : ∀ r ∈ f, ∃ k, otuOf r = some k ∧ containsOtu st.otus k = true)
    (hl : lociFold st.loci f = some w) :
    mergeFile st f =
      .ok ⟨st.otus.map (fun p =>
              (p.1, postGap (st.total + w) w (foldSpec f [] p.1 p.2))),
           st.total + w, some w⟩ := by
  obtain ⟨a', ha'⟩ := mergeRecords_char f ⟨st.otus, [], st.loci⟩ hwfc
  rw [mergeFile, ha']
  simp only [hl]
  apply congrArg
  apply congrArg (fun l => MSt.mk l (st.total + w) (some w))
  rw [List.map_map]
  rfl


/-- Per-entry effect of one file on row length: when the dictionary row is
at the running total and every record of the file has width `w`, the row
ends the file (merge plus gap-fill) at `total + w`. -/
theorem entry_len (f : List SRecord) (w total : Nat) (k : Str) (o : Otu)
    (hw : ∀ r ∈ f, r.seq.length = w)
    (hwf : ∀ r ∈ f, (otuOf r).isSome)
    (ho : o.sequence.length = total) :
    (postGap (total + w) w (foldSpec f [] k o)).sequence.length = total + w := by
  rcases foldSpec_cases f [] k o (List.not_mem_nil k) hwf with ⟨_, heq⟩ | ⟨r0, hr0, _, heq⟩
  · rw [heq, postGap]
    by_cases hlt : o.sequence.length < total + w
    · rw [if_pos hlt, Otu.update_sequence, List.length_append, make_gaps_length, ho]
    · rw [if_neg hlt]
      omega
  · rw [heq, postGap]
    have hlen : (o.update r0.seq (accOf r0) (get_ungapped_length r0.seq)).sequence.length =
        total + w := by
      rw [Otu.update_sequence, List.length_append, ho, hw r0 hr0]
    rw [hlen]
    simp [hlen]

/-- `mergeFiles` splits over list append. -/
theorem mergeFiles_append :
    ∀ (l1 l2 : List (List SRecord)) (st : MSt),
    mergeFiles st (l1 ++ l2) =
      (match mergeFiles st l1 with
       | .error e => .error e
       | .ok st' => mergeFiles st' l2) := by
  intro l1
  induction l1 with
  | nil => intro l2 st; rfl
  | cons f l1 ih =>
    intro l2 st
    show mergeFiles st (f :: (l1 ++ l2)) = _
    rw [mergeFiles]
    cases hf : mergeFile st f with
    | error e =>
      rw [mergeFiles, hf]
    | ok st1 =>
      rw [mergeFiles, hf]
      exact ih l2 st1

/-- The main run lemma for the merge pass: under width-consistent files
whose labels are all keys, with every row at the running total, and with
the `loci_length` local available whenever the first file is empty, the
pass succeeds, preserves the key list, ends with all rows at the final
total, and (for non-empty files) adds exactly the sum of the file
widths. -/
theorem mergeFiles_run :
    ∀ (files : List (List SRecord)) (st : MSt),
    (∀ f ∈ files, ∀ r ∈ f, ∃ k, otuOf r = some k ∧ containsOtu st.otus k = true) →
    (∀ f ∈ files, widthCons f) →
    (∀ p ∈ st.otus, p.2.sequence.length = st.total) →
    (st.loci.isSome = true ∨ ∀ hd, files.head? = some hd → hd ≠ []) →
    ∃ st' : MSt, mergeFiles st files = .ok st' ∧
      keys st'.otus = keys st.otus ∧
      (∀ p ∈ st'.otus, p.2.sequence.length = st'.total) ∧
      (files ≠ [] → st'.loci.isSome = true) ∧
      (files = [] → st' = st) ∧
      ((∀ f ∈ files, f ≠ []) → st'.total = st.total + (files.map fileWidth).sum) := by
  intro files
  induction files with
  | nil =>
    intro st _ _ hlen _
    exact ⟨st, rfl, rfl, hlen, fun h => absurd rfl h, fun _ => rfl,
           fun _ => by simp⟩
  | cons f rest ih =>
    intro st hwfc hcons hlen hstart
    have hwff : ∀ r ∈ f, (otuOf r).isSome := by
      intro r hr
      obtain ⟨k, hk, _⟩ := hwfc f (List.mem_cons_self f rest) r hr
      rw [hk]; rfl
    obtain ⟨w, hlw, hww, hwne⟩ :
        ∃ w, lociFold st.loci f = some w ∧ (∀ r ∈ f, r.seq.length = w) ∧
          (f ≠ [] → w = fileWidth f) := by
      cases f with
      | nil =>
        rcases hstart with hs | hs
        · obtain ⟨w0, hw0⟩ := Option.isSome_iff_exists.mp hs
          exact ⟨w0, by rw [lociFold]; simpa using hw0,
                 fun r hr => absurd hr (List.not_mem_nil r),
                 fun h => absurd rfl h⟩
        · exact absurd rfl (hs [] rfl)
      | cons r0 f0 =>
        refine ⟨fileWidth (r0 :: f0), ?_, ?_, fun _ => rfl⟩
        · exact lociFold_of_width _ _ (by simp) (hcons _ (List.mem_cons_self _ rest)) _
        · exact hcons _ (List.mem_cons_self _ rest)
    have hchar := mergeFile_char st f w (hwfc f (List.mem_cons_self f rest)) hlw
    set st1 : MSt := ⟨st.otus.map (fun p =>
        (p.1, postGap (st.total + w) w (foldSpec f [] p.1 p.2))),
        st.total + w, some w⟩ with hst1
    have hkeys1 : keys st1.otus = keys st.otus := by
      rw [hst1]
      exact keys_mapSnd st.otus (fun s o => postGap (st.total + w) w (foldSpec f [] s o))
    have hlen1 : ∀ p ∈ st1.otus, p.2.sequence.length = st1.total := by
      rw [hst1]
      intro p hp
      obtain ⟨q, hq, hpq⟩ := List.mem_map.mp hp
      rw [← hpq]
      exact entry_len f w st.total q.1 q.2 hww hwff (hlen q hq)
    obtain ⟨st', h1, h2, h3, h4, h5, h6⟩ := ih st1
      (fun f' hf' r hr => by
        obtain ⟨k, hk, hc⟩ := hwfc f' (List.mem_cons_of_mem f hf') r hr
        exact ⟨k, hk, by rw [containsOtu_eq_of_keys hkeys1]; exact hc⟩)
      (fun f' hf' => hcons f' (List.mem_cons_of_mem f hf'))
      hlen1
      (Or.inl (by rw [hst1]; rfl))
    refine ⟨st', ?_, by rw [h2, hkeys1], h3, fun _ => ?_, fun h => absurd h (by simp), ?_⟩
    · rw [mergeFiles, hchar]
      exact h1
    · cases hr : rest with
      | nil =>
        rw [h5 hr, hst1]
        rfl
      | cons a b => exact h4 (by rw [hr]; simp)
    · intro hne
      have hrt := h6 (fun f' hf' => hne f' (List.mem_cons_of_mem f hf'))
      rw [hrt, hst1]
      have hwf0 : w = fileWidth f := hwne (hne f (List.mem_cons_self f rest))
      simp [hwf0]
      omega

/-- Claim C1: for every input list of locus alignment files in which each
file contains at least one record and all records within a file have the
same aligned length, after the build completes every Taxon Record's
sequence has the same total length, equal to the sum over all input files
of that file's aligned width. -/
theorem C1_length_invariant (files : List (List SRecord)) (m : OtuMap) (t : Nat)
    (hne : ∀ f ∈ files, f ≠ [])
    (hcons : ∀ f ∈ files, widthCons f)
    (hok : build files = .ok (m, t)) :
    t = (files.map fileWidth).sum ∧
    ∀ p ∈ m, p.2.sequence.length = (files.map fileWidth).sum := by
  cases hdisc : discover files with
  | error e =>
    rw [build, hdisc] at hok
    cases hok
  | ok m0 =>
    rw [build, hdisc] at hok
    dsimp only at hok
    obtain ⟨hwfc, hfresh, _⟩ := discover_ok_props files m0 hdisc
    obtain ⟨st', h1, h2, h3, _, _, h6⟩ := mergeFiles_run files ⟨m0, 0, none⟩
      (fun f hf r hr => hwfc f hf r hr)
      hcons
      (fun p hp => by rw [hfresh p hp]; rfl)
      (Or.inr (fun hd hhd hd0 => by
        have : hd ∈ files := List.mem_of_mem_head? (by rw [hhd]; rfl)
        exact hne hd this hd0))
    rw [h1] at hok
    cases hok
    have htot := h6 hne
    simp only at htot
    constructor
    · omega
    · intro p hp
      have := h3 p hp
      omega

/-- A label carried by no record of the file is never touched by the
record loop. -/
theorem foldSpec_absent :
    ∀ (f : List SRecord) (a : List Str) (k : Str) (o : Otu),
    (∀ r ∈ f, otuOf r ≠ some k) → foldSpec f a k o = o := by
  intro f
  induction f with
  | nil => intro a k o _; rfl
  | cons r rest ih =>
    intro a k o habs
    have hrest : ∀ r' ∈ rest, otuOf r' ≠ some k :=
      fun r' hr' => habs r' (List.mem_cons_of_mem r hr')
    cases hk : otuOf r with
    | none =>
      rw [foldSpec, hk]
      exact ih a k o hrest
    | some k0 =>
      have hne : ¬ k0 = k := fun h =>
        habs r (List.mem_cons_self r rest) (by rw [hk, h])
      by_cases h0 : k0 ∈ a
      · rw [foldSpec_cons_mem hk rest h0]
        exact ih a k o hrest
      · rw [foldSpec_cons_new hk rest h0, if_neg hne]
        exact ih (a ++ [k0]) k o hrest

/-- With a positive width, every OTU receives exactly one `update` from a
file (a real merge or the gap-fill): both provenance lists grow by one
entry and the row grows by the width. -/
theorem entry_one_update (f : List SRecord) (w total : Nat) (k : Str) (o : Otu)
    (hww : ∀ r ∈ f, r.seq.length = w)
    (hwf : ∀ r ∈ f, (otuOf r).isSome)
    (hw0 : 0 < w)
    (ho : o.sequence.length = total) :
    (postGap (total + w) w (foldSpec f [] k o)).accessions.length =
      o.accessions.length + 1 ∧
    (postGap (total + w) w (foldSpec f [] k o)).sequence_lengths.length =
      o.sequence_lengths.length + 1 ∧
    (postGap (total + w) w (foldSpec f [] k o)).sequence.length =
      o.sequence.length + w := by
  rcases foldSpec_cases f [] k o (List.not_mem_nil k) hwf with ⟨_, heq⟩ | ⟨r0, hr0, _, heq⟩
  · rw [heq, postGap, if_pos (by omega)]
    refine ⟨?_, ?_, ?_⟩
    · rw [Otu.update_accessions, List.length_append]; rfl
    · rw [Otu.update_sequence_lengths, List.length_append]; rfl
    · rw [Otu.update_sequence, List.length_append, make_gaps_length]
  · rw [heq, postGap]
    have hlen : (o.update r0.seq (accOf r0) (get_ungapped_length r0.seq)).sequence.length =
        total + w := by
      rw [Otu.update_sequence, List.length_append, ho, hww r0 hr0]
    rw [if_neg (by omega)]
    refine ⟨?_, ?_, ?_⟩
    · rw [Otu.update_accessions, List.length_append]; rfl
    · rw [Otu.update_sequence_lengths, List.length_append]; rfl
    · rw [Otu.update_sequence, List.length_append, hww r0 hr0]

/-- With a positive width, an OTU absent from a file receives exactly the
gap-fill update. -/
theorem entry_absent (f : List SRecord) (w total : Nat) (k : Str) (o : Otu)
    (habs : ∀ r ∈ f, otuOf r ≠ some k)
    (hw0 : 0 < w)
    (ho : o.sequence.length = total) :
    postGap (total + w) w (foldSpec f [] k o) = o.update (make_gaps w) ['-'] 0 := by
  rw [foldSpec_absent f [] k o habs, postGap, if_pos (by omega)]

theorem lookupOtu_map (m : OtuMap) (g : Str → Otu → Otu) (k : Str) :
    lookupOtu (m.map (fun p => (p.1, g p.1 p.2))) k = (lookupOtu m k).map (g k) := by
  induction m with
  | nil => rfl
  | cons p rest ih =>
    by_cases hpk : p.1 = k
    · rw [List.map_cons, lookupOtu, lookupOtu]
      dsimp only
      rw [if_pos hpk, if_pos hpk, hpk]
      rfl
    · rw [List.map_cons, lookupOtu, lookupOtu]
      dsimp only
      rw [if_neg hpk, if_neg hpk]
      exact ih

theorem lookupOtu_mem (m : OtuMap) (k : Str) (o : Otu)
    (h : lookupOtu m k = some o) : (k, o) ∈ m := by
  induction m with
  | nil => cases h
  | cons p rest ih =>
    rw [lookupOtu] at h
    by_cases hpk : p.1 = k
    · rw [if_pos hpk] at h
      have : p.2 = o := Option.some.inj h
      have hp : p = (k, o) := Prod.ext hpk this
      exact hp ▸ List.mem_cons_self p rest
    · rw [if_neg hpk] at h
      exact List.mem_cons_of_mem p (ih h)

/-- Facts about the builder state after the first `n` files, for
non-empty width-consistent input. -/
theorem buildState_props (files : List (List SRecord)) (n : Nat) (st : MSt)
    (hne : ∀ f ∈ files, f ≠ [])
    (hcons : ∀ f ∈ files, widthCons f)
    (h : buildState files n = .ok st) :
    ∃ m0, discover files = .ok m0 ∧
      keys st.otus = keys m0 ∧
      (∀ p ∈ st.otus, p.2.sequence.length = st.total) ∧
      (∀ f ∈ files, ∀ r ∈ f, ∃ k, otuOf r = some k ∧ containsOtu st.otus k = true) ∧
      st.total = ((files.take n).map fileWidth).sum := by
  cases hdisc : discover files with
  | error e =>
    rw [buildState, hdisc] at h
    cases h
  | ok m0 =>
    rw [buildState, hdisc] at h
    dsimp only at h
    obtain ⟨hwfc, hfresh, _⟩ := discover_ok_props files m0 hdisc
    obtain ⟨st', h1, h2, h3, _, _, h6⟩ := mergeFiles_run (files.take n) ⟨m0, 0, none⟩
      (fun f hf r hr => hwfc f (List.take_subset n files hf) r hr)
      (fun f hf => hcons f (List.take_subset n files hf))
      (fun p hp => by rw [hfresh p hp]; rfl)
      (Or.inr (fun hd hhd hd0 => by
        have : hd ∈ files.take n := List.mem_of_mem_head? (by rw [hhd]; rfl)
        exact hne hd (List.take_subset n files this) hd0))
    rw [h1] at h
    cases h
    refine ⟨m0, rfl, h2, h3, ?_, ?_⟩
    · intro f hf r hr
      obtain ⟨k, hk, hc⟩ := hwfc f hf r hr
      exact ⟨k, hk, by rw [containsOtu_eq_of_keys h2]; exact hc⟩
    · have := h6 (fun f hf => hne f (List.take_subset n files hf))
      simpa using this

/-- The builder state after `n+1` files is obtained from the state after
`n` files by merging file `n`. -/
theorem buildState_succ (files : List (List SRecord)) (n : Nat) (hn : n < files.length)
    (st st' : MSt)
    (hA : buildState files n = .ok st) (hB : buildState files (n + 1) = .ok st') :
    mergeFile st (files.get ⟨n, hn⟩) = .ok st' := by
  cases hdisc : discover files with
  | error e =>
    rw [buildState, hdisc] at hA
    cases hA
  | ok m0 =>
    rw [buildState, hdisc] at hA hB
    dsimp only at hA hB
    have htake : files.take (n + 1) = files.take n ++ [files.get ⟨n, hn⟩] := by
      rw [List.take_succ]
      congr
      rw [List.getElem?_eq_getElem hn]
      rfl
    rw [htake, mergeFiles_append, hA] at hB
    dsimp only at hB
    rw [mergeFiles] at hB
    cases hmf : mergeFile st (files.get ⟨n, hn⟩) with
    | error e =>
      rw [hmf] at hB
      cases hB
    | ok st1 =>
      rw [hmf] at hB
      dsimp only at hB
      rw [mergeFiles] at hB
      cases hB
      rfl

/-- Claim C2 (amended: all locus widths positive): for every locus file
processed during the merge pass, after the gap-fill step for that file
each Taxon Record has received exactly one update for that locus — both
provenance lists grow by exactly one entry — and each record's total
sequence length has increased by exactly that locus's aligned width. -/
theorem C2_one_update_per_locus (files : List (List SRecord)) (n : Nat)
    (hn : n < files.length) (st st' : MSt)
    (hne : ∀ f ∈ files, f ≠ [])
    (hcons : ∀ f ∈ files, widthCons f)
    (hpos : ∀ f ∈ files, 0 < fileWidth f)
    (hA : buildState files n = .ok st) (hB : buildState files (n + 1) = .ok st') :
    st'.otus.length = st.otus.length ∧
    st'.total = st.total + fileWidth (files.get ⟨n, hn⟩) ∧
    ∀ i (hi : i < st.otus.length) (hi' : i < st'.otus.length),
      (st'.otus.get ⟨i, hi'⟩).1 = (st.otus.get ⟨i, hi⟩).1 ∧
      (st'.otus.get ⟨i, hi'⟩).2.accessions.length =
        (st.otus.get ⟨i, hi⟩).2.accessions.length + 1 ∧
      (st'.otus.get ⟨i, hi'⟩).2.sequence_lengths.length =
        (st.otus.get ⟨i, hi⟩).2.sequence_lengths.length + 1 ∧
      (st'.otus.get ⟨i, hi'⟩).2.sequence.length =
        (st.otus.get ⟨i, hi⟩).2.sequence.length + fileWidth (files.get ⟨n, hn⟩) := by
  obtain ⟨m0, _, _, hlen, hwfc, _⟩ := buildState_props files n st hne hcons hA
  have hstep := buildState_succ files n hn st st' hA hB
  have hfn : files.get ⟨n, hn⟩ ∈ files := List.get_mem files n hn
  set fn := files.get ⟨n, hn⟩ with hfneq
  have hchar := mergeFile_char st fn (fileWidth fn) (hwfc fn hfn)
    (lociFold_of_width (fileWidth fn) fn (hne fn hfn) (hcons fn hfn) st.loci)
  rw [hchar] at hstep
  have hst' : st' = ⟨st.otus.map (fun p =>
      (p.1, postGap (st.total + fileWidth fn) (fileWidth fn) (foldSpec fn [] p.1 p.2))),
      st.total + fileWidth fn, some (fileWidth fn)⟩ := by
    cases hstep
    rfl
  have hwff : ∀ r ∈ fn, (otuOf r).isSome := by
    intro r hr
    obtain ⟨k, hk, _⟩ := hwfc fn hfn r hr
    rw [hk]; rfl
  subst hst'
  refine ⟨by simp, rfl, ?_⟩
  intro i hi hi'
  have hget : ∀ (hj : i < (st.otus.map (fun p =>
      (p.1, postGap (st.total + fileWidth fn) (fileWidth fn) (foldSpec fn [] p.1 p.2)))).length),
      (st.otus.map (fun p =>
        (p.1, postGap (st.total + fileWidth fn) (fileWidth fn) (foldSpec fn [] p.1 p.2)))).get
          ⟨i, hj⟩ =
      ((st.otus.get ⟨i, hi⟩).1,
        postGap (st.total + fileWidth fn) (fileWidth fn)
          (foldSpec fn [] (st.otus.get ⟨i, hi⟩).1 (st.otus.get ⟨i, hi⟩).2)) := by
    intro hj
    rw [List.get_eq_getElem, List.getElem_map]
    rfl
  rw [hget hi']
  obtain ⟨ha, hb, hc⟩ := entry_one_update fn (fileWidth fn) st.total
    (st.otus.get ⟨i, hi⟩).1 (st.otus.get ⟨i, hi⟩).2
    (hcons fn hfn) hwff (hpos fn hfn)
    (hlen _ (List.get_mem st.otus i hi))
  exact ⟨rfl, ha, hb, hc⟩

/-- Claim C3 (amended: the locus's width is positive): a taxon in the
discovered universe with no record in locus file `n` receives from that
file exactly the gap segment of `width(file n)` `'-'` characters, the
placeholder accession `"-"`, and ungapped length `0`. -/
theorem C3_gap_fill (files : List (List SRecord)) (n : Nat)
    (hn : n < files.length) (st st' : MSt) (k : Str) (o : Otu)
    (hne : ∀ f ∈ files, f ≠ [])
    (hcons : ∀ f ∈ files, widthCons f)
    (hposn : 0 < fileWidth (files.get ⟨n, hn⟩))
    (habs : ∀ r ∈ files.get ⟨n, hn⟩, otuOf r ≠ some k)
    (hA : buildState files n = .ok st) (hB : buildState files (n + 1) = .ok st')
    (ho : lookupOtu st.otus k = some o) :
    lookupOtu st'.otus k = some
      { o with sequence := o.sequence ++ List.replicate (fileWidth (files.get ⟨n, hn⟩)) '-',
               accessions := o.accessions ++ [['-']],
               sequence_lengths := o.sequence_lengths ++ [0] } := by
  obtain ⟨m0, _, _, hlen, hwfc, _⟩ := buildState_props files n st hne hcons hA
  have hstep := buildState_succ files n hn st st' hA hB
  have hfn : files.get ⟨n, hn⟩ ∈ files := List.get_mem files n hn
  set fn := files.get ⟨n, hn⟩ with hfneq
  have hchar := mergeFile_char st fn (fileWidth fn) (hwfc fn hfn)
    (lociFold_of_width (fileWidth fn) fn (hne fn hfn) (hcons fn hfn) st.loci)
  rw [hchar] at hstep
  have hst' : st' = ⟨st.otus.map (fun p =>
      (p.1, postGap (st.total + fileWidth fn) (fileWidth fn) (foldSpec fn [] p.1 p.2))),
      st.total + fileWidth fn, some (fileWidth fn)⟩ := by
    cases hstep
    rfl
  subst hst'
  show lookupOtu (st.otus.map (fun p =>
      (p.1, (fun s u => postGap (st.total + fileWidth fn) (fileWidth fn)
        (foldSpec fn [] s u)) p.1 p.2))) k = _
  rw [lookupOtu_map st.otus
    (fun s u => postGap (st.total + fileWidth fn) (fileWidth fn) (foldSpec fn [] s u)) k]
  rw [ho]
  have hoin : (k, o) ∈ st.otus := lookupOtu_mem st.otus k o ho
  have hogap := entry_absent fn (fileWidth fn) st.total k o habs hposn (hlen (k, o) hoin)
  show some (postGap (st.total + fileWidth fn) (fileWidth fn) (foldSpec fn [] k o)) = _
  rw [hogap, Otu.update, make_gaps_eq]

/-- Claim C8 (amended: the first file must be non-empty, descriptions
well-formed, files width-consistent): an input list that includes a
zero-record locus file raises no error, and after each file — the empty
one included — every Taxon Record still has the same total sequence
length. -/
theorem C8_empty_file_tolerated (files : List (List SRecord))
    (hwf : ∀ f ∈ files, ∀ r ∈ f, (otuOf r).isSome = true)
    (hcons : ∀ f ∈ files, widthCons f)
    (hfirst : files.head?.getD [] ≠ [])
    (hempty : ∃ f ∈ files, f = []) :
    ∀ n, ∃ st : MSt, buildState files n = .ok st ∧
      ∀ p ∈ st.otus, ∀ q ∈ st.otus, p.2.sequence.length = q.2.sequence.length := by
  obtain ⟨m0, hdisc⟩ := discoverFiles_total files [] hwf
  have hdisc' : discover files = .ok m0 := hdisc
  obtain ⟨hwfc, hfresh, _⟩ := discover_ok_props files m0 hdisc'
  intro n
  obtain ⟨st', h1, _, h3, _, _, _⟩ := mergeFiles_run (files.take n) ⟨m0, 0, none⟩
    (fun f hf r hr => hwfc f (List.take_subset n files hf) r hr)
    (fun f hf => hcons f (List.take_subset n files hf))
    (fun p hp => by rw [hfresh p hp]; rfl)
    (Or.inr (fun hd hhd hd0 => by
      cases n with
      | zero => cases hhd
      | succ n' =>
        cases files with
        | nil => cases hhd
        | cons f0 rest =>
          have : hd = f0 := by
            rw [List.take_succ_cons] at hhd
            exact (Option.some.inj hhd).symm
          rw [this] at hd0
          rw [hd0] at hfirst
          exact hfirst rfl))
  refine ⟨st', ?_, ?_⟩
  · rw [buildState, hdisc']
    exact h1
  · intro p hp q hq
    rw [h3 p hp, h3 q hq]

/-- The `already_added` list only grows along the record loop. -/
theorem mergeRecords_already_mono :
    ∀ (rs : List SRecord) (st st' : FSt), mergeRecords st rs = .ok st' →
    ∀ k ∈ st.already, k ∈ st'.already := by
  intro rs
  induction rs with
  | nil =>
    intro st st' h k hk
    cases h
    exact hk
  | cons r rest ih =>
    intro st st' h k hk
    rw [mergeRecords] at h
    cases hr : mergeRecord st r with
    | error e => rw [hr] at h; cases h
    | ok st1 =>
      rw [hr] at h
      refine ih st1 st' h k ?_
      rw [mergeRecord] at hr
      cases hko : otuOf r with
      | none => rw [hko] at hr; cases hr
      | some k0 =>
        rw [hko] at hr
        dsimp only at hr
        by_cases hmem : k0 ∈ st.already
        · rw [if_pos hmem] at hr
          cases hr
          exact hk
        · rw [if_neg hmem] at hr
          by_cases hct : containsOtu st.otus k0 = true
          · rw [if_pos hct] at hr
            cases hr
            exact List.mem_append_left _ hk
          · rw [if_neg hct] at hr
            cases hr

/-- Every label seen by a successful record loop ends up in
`already_added`. -/
theorem mergeRecords_label_mem :
    ∀ (rs : List SRecord) (st st' : FSt), mergeRecords st rs = .ok st' →
    ∀ r ∈ rs, ∀ k, otuOf r = some k → k ∈ st'.already := by
  intro rs
  induction rs with
  | nil =>
    intro st st' _ r hr
    exact absurd hr (List.not_mem_nil r)
  | cons r rest ih =>
    intro st st' h r' hr' k hk
    rw [mergeRecords] at h
    cases hr : mergeRecord st r with
    | error e => rw [hr] at h; cases h
    | ok st1 =>
      rw [hr] at h
      rcases List.mem_cons.mp hr' with he | he
      · subst he
        rw [mergeRecord, hk] at hr
        dsimp only at hr
        by_cases hmem : k ∈ st.already
        · rw [if_pos hmem] at hr
          cases hr
          exact mergeRecords_already_mono rest _ st' h k hmem
        · rw [if_neg hmem] at hr
          by_cases hct : containsOtu st.otus k = true
          · rw [if_pos hct] at hr
            cases hr
            exact mergeRecords_already_mono rest _ st' h k
              (List.mem_append_right _ (List.mem_singleton.mpr rfl))
          · rw [if_neg hct] at hr
            cases hr
      · exact ih st1 st' h r' he k hk

/-- Claim C4: in a locus file where an earlier record (inside `pre`)
already carries taxon label `k`, a later record with the same label is a
no-op on the dictionary and on `already_added`; only the `loci_length`
local is reassigned.  Only the first record per label is merged. -/
theorem C4_first_record_wins (m : OtuMap) (loci : Option Nat)
    (pre : List SRecord) (r dup0 : SRecord) (k : Str) (st : FSt)
    (hdup : dup0 ∈ pre) (hk0 : otuOf dup0 = some k) (hk : otuOf r = some k)
    (hpre : mergeRecords ⟨m, [], loci⟩ pre = .ok st) :
    mergeRecord st r = .ok ⟨st.otus, st.already, some r.seq.length⟩ := by
  have hmem : k ∈ st.already := mergeRecords_label_mem pre _ st hpre dup0 hdup k hk0
  rw [mergeRecord, hk]
  dsimp only
  rw [if_pos hmem]

/-- The pairing invariant between `sequence_lengths` and `accessions`:
a stored ungapped length is zero exactly when the stored accession is the
gap placeholder. -/
def pairedZero (l : Nat) (a : Str) : Prop := l = 0 ↔ a = ['-']

/-- One file preserves the pairing invariant when no kept record is fully
gapped and no accession token is literally `"-"`. -/
theorem entry_paired (f : List SRecord) (w total : Nat) (k : Str) (o : Otu)
    (hww : ∀ r ∈ f, r.seq.length = w)
    (hwf : ∀ r ∈ f, (otuOf r).isSome)
    (hw0 : 0 < w)
    (hungap : ∀ r ∈ f, 0 < get_ungapped_length r.seq)
    (hacc : ∀ r ∈ f, accOf r ≠ ['-'])
    (ho : o.sequence.length = total)
    (hinv : List.Forall₂ pairedZero o.sequence_lengths o.accessions) :
    List.Forall₂ pairedZero
      (postGap (total + w) w (foldSpec f [] k o)).sequence_lengths
      (postGap (total + w) w (foldSpec f [] k o)).accessions := by
  rcases foldSpec_cases f [] k o (List.not_mem_nil k) hwf with ⟨_, heq⟩ | ⟨r0, hr0, _, heq⟩
  · rw [heq, postGap, if_pos (by omega), Otu.update_sequence_lengths, Otu.update_accessions]
    refine List.rel_append hinv ?_
    exact List.Forall₂.cons (by constructor <;> intro <;> rfl) List.Forall₂.nil
  · rw [heq, postGap]
    have hlen : (o.update r0.seq (accOf r0) (get_ungapped_length r0.seq)).sequence.length =
        total + w := by
      rw [Otu.update_sequence, List.length_append, ho, hww r0 hr0]
    rw [if_neg (by omega), Otu.update_sequence_lengths, Otu.update_accessions]
    refine List.rel_append hinv ?_
    refine List.Forall₂.cons ?_ List.Forall₂.nil
    constructor
    · intro h0
      exact absurd h0 (Nat.pos_iff_ne_zero.mp (hungap r0 hr0))
    · intro ha
      exact absurd ha (hacc r0 hr0)

/-- Run lemma for the provenance parallelism: with positive widths,
non-empty width-consistent files, no fully-gapped record and no literal
`"-"` accession token, all provenance lists grow by exactly one entry per
file and stay paired. -/
theorem mergeFiles_run_paired :
    ∀ (files : List (List SRecord)) (st : MSt) (c : Nat),
    (∀ f ∈ files, ∀ r ∈ f, ∃ k, otuOf r = some k ∧ containsOtu st.otus k = true) →
    (∀ f ∈ files, widthCons f) →
    (∀ f ∈ files, f ≠ []) →
    (∀ f ∈ files, 0 < fileWidth f) →
    (∀ f ∈ files, ∀ r ∈ f, 0 < get_ungapped_length r.seq) →
    (∀ f ∈ files, ∀ r ∈ f, accOf r ≠ ['-']) →
    (∀ p ∈ st.otus, p.2.sequence.length = st.total) →
    (∀ p ∈ st.otus, p.2.accessions.length = c ∧ p.2.sequence_lengths.length = c ∧
      List.Forall₂ pairedZero p.2.sequence_lengths p.2.accessions) →
    ∃ st' : MSt, mergeFiles st files = .ok st' ∧
      ∀ p ∈ st'.otus, p.2.accessions.length = c + files.length ∧
        p.2.sequence_lengths.length = c + files.length ∧
        List.Forall₂ pairedZero p.2.sequence_lengths p.2.accessions := by
  intro files
  induction files with
  | nil =>
    intro st c _ _ _ _ _ _ _ hprov
    refine ⟨st, rfl, ?_⟩
    intro p hp
    obtain ⟨h1, h2, h3⟩ := hprov p hp
    exact ⟨by rw [h1]; rfl, by rw [h2]; rfl, h3⟩
  | cons f rest ih =>
    intro st c hwfc hcons hne hpos hungap hacc hlen hprov
    have hf : f ∈ f :: rest := List.mem_cons_self f rest
    have hwff : ∀ r ∈ f, (otuOf r).isSome := by
      intro r hr
      obtain ⟨k, hk, _⟩ := hwfc f hf r hr
      rw [hk]; rfl
    have hchar := mergeFile_char st f (fileWidth f) (hwfc f hf)
      (lociFold_of_width (fileWidth f) f (hne f hf) (hcons f hf) st.loci)
    set st1 : MSt := ⟨st.otus.map (fun p =>
        (p.1, postGap (st.total + fileWidth f) (fileWidth f) (foldSpec f [] p.1 p.2))),
        st.total + fileWidth f, some (fileWidth f)⟩ with hst1
    have hkeys1 : keys st1.otus = keys st.otus := by
      rw [hst1]
      exact keys_mapSnd st.otus
        (fun s o => postGap (st.total + fileWidth f) (fileWidth f) (foldSpec f [] s o))
    have hmem1 : ∀ p ∈ st1.otus, ∃ q ∈ st.otus, p =
        (q.1, postGap (st.total + fileWidth f) (fileWidth f) (foldSpec f [] q.1 q.2)) := by
      rw [hst1]
      intro p hp
      obtain ⟨q, hq, hpq⟩ := List.mem_map.mp hp
      exact ⟨q, hq, hpq.symm⟩
    obtain ⟨st', h1, h2⟩ := ih st1 (c + 1)
      (fun f' hf' r hr => by
        obtain ⟨k, hk, hc⟩ := hwfc f' (List.mem_cons_of_mem f hf') r hr
        exact ⟨k, hk, by rw [containsOtu_eq_of_keys hkeys1]; exact hc⟩)
      (fun f' hf' => hcons f' (List.mem_cons_of_mem f hf'))
      (fun f' hf' => hne f' (List.mem_cons_of_mem f hf'))
      (fun f' hf' => hpos f' (List.mem_cons_of_mem f hf'))
      (fun f' hf' => hungap f' (List.mem_cons_of_mem f hf'))
      (fun f' hf' => hacc f' (List.mem_cons_of_mem f hf'))
      (by
        intro p hp
        obtain ⟨q, hq, hpq⟩ := hmem1 p hp
        rw [hpq]
        show (postGap _ _ _).sequence.length = st1.total
        rw [hst1]
        exact entry_len f (fileWidth f) st.total q.1 q.2 (hcons f hf) hwff (hlen q hq))
      (by
        intro p hp
        obtain ⟨q, hq, hpq⟩ := hmem1 p hp
        obtain ⟨hc1, hc2, hc3⟩ := hprov q hq
        obtain ⟨ha, hb, _⟩ := entry_one_update f (fileWidth f) st.total q.1 q.2
          (hcons f hf) hwff (hpos f hf) (hlen q hq)
        rw [hpq]
        refine ⟨by rw [ha, hc1], by rw [hb, hc2], ?_⟩
        exact entry_paired f (fileWidth f) st.total q.1 q.2 (hcons f hf) hwff
          (hpos f hf) (hungap f hf) (hacc f hf) (hlen q hq) hc3)
    refine ⟨st', ?_, ?_⟩
    · rw [mergeFiles, hchar]
      exact h1
    · intro p hp
      obtain ⟨h21, h22, h23⟩ := h2 p hp
      refine ⟨by rw [h21, List.length_cons]; omega, by rw [h22, List.length_cons]; omega, h23⟩

/-- Index-wise reading of the pairing invariant. -/
theorem forall2_pairedZero_get? (l : List Nat) (a : List Str)
    (h : List.Forall₂ pairedZero l a) :
    ∀ i, (l.get? i = some 0 ↔ a.get? i = some ['-']) := by
  induction h with
  | nil =>
    intro i
    constructor <;> intro h' <;> cases h'
  | cons hr htl ih =>
    intro i
    cases i with
    | zero =>
      simp only [List.get?_cons_zero]
      constructor
      · intro h'
        exact congrArg some (hr.mp (Option.some.inj h'))
      · intro h'
        exact congrArg some (hr.mpr (Option.some.inj h'))
    | succ i' =>
      simp only [List.get?_cons_succ]
      exact ih i'

/-- Claim C5 (amended: all locus widths positive, no record is entirely
gap characters, no accession token is literally `"-"`): after the build,
every Taxon Record satisfies `len(accessions) = len(sequence_lengths) =
number of locus files`, and `sequence_lengths[i] = 0` iff
`accessions[i] = "-"`. -/
theorem C5_parallel_provenance (files : List (List SRecord)) (m : OtuMap) (t : Nat)
    (hne : ∀ f ∈ files, f ≠ [])
    (hcons : ∀ f ∈ files, widthCons f)
    (hpos : ∀ f ∈ files, 0 < fileWidth f)
    (hungap : ∀ f ∈ files, ∀ r ∈ f, 0 < get_ungapped_length r.seq)
    (hacc : ∀ f ∈ files, ∀ r ∈ f, accOf r ≠ ['-'])
    (hok : build files = .ok (m, t)) :
    ∀ p ∈ m, p.2.accessions.length = files.length ∧
      p.2.sequence_lengths.length = files.length ∧
      ∀ i, (p.2.sequence_lengths.get? i = some 0 ↔ p.2.accessions.get? i = some ['-']) := by
  cases hdisc : discover files with
  | error e =>
    rw [build, hdisc] at hok
    cases hok
  | ok m0 =>
    rw [build, hdisc] at hok
    dsimp only at hok
    obtain ⟨hwfc, hfresh, _⟩ := discover_ok_props files m0 hdisc
    obtain ⟨st', h1, h2⟩ := mergeFiles_run_paired files ⟨m0, 0, none⟩ 0
      (fun f hf r hr => hwfc f hf r hr)
      hcons hne hpos hungap hacc
      (fun p hp => by rw [hfresh p hp]; rfl)
      (fun p hp => by
        rw [hfresh p hp]
        exact ⟨rfl, rfl, List.Forall₂.nil⟩)
    rw [h1] at hok
    cases hok
    intro p hp
    obtain ⟨h21, h22, h23⟩ := h2 p hp
    refine ⟨by rw [h21]; omega, by rw [h22]; omega, ?_⟩
    exact forall2_pairedZero_get? _ _ h23


theorem chunksAux_flatten :
    ∀ (fuel : Nat) (s : Str), s.length ≤ fuel → (chunksAux fuel s).flatten = s := by
  intro fuel
  induction fuel with
  | zero =>
    intro s hs
    cases s with
    | nil => rfl
    | cons c t => simp at hs
  | succ fuel ih =>
    intro s hs
    cases s with
    | nil => rfl
    | cons c t =>
      rw [chunksAux, List.flatten_cons]
      rw [ih ((c :: t).drop 80) (by
        rw [List.length_drop]
        omega)]
      exact List.take_append_drop 80 (c :: t)

theorem chunksAux_mem :
    ∀ (fuel : Nat) (s : Str) (l : Str), l ∈ chunksAux fuel s →
    l ≠ [] ∧ l.length ≤ 80 ∧ ∀ c ∈ l, c ∈ s := by
  intro fuel
  induction fuel with
  | zero =>
    intro s l hl
    cases s with
    | nil => cases hl
    | cons c t => cases hl
  | succ fuel ih =>
    intro s l hl
    cases s with
    | nil => cases hl
    | cons c t =>
      rw [chunksAux] at hl
      rcases List.mem_cons.mp hl with he | he
      · refine ⟨?_, ?_, ?_⟩
        · rw [he]
          simp
        · rw [he, List.length_take]
          omega
        · intro x hx
          rw [he] at hx
          exact List.take_subset 80 (c :: t) hx
      · obtain ⟨h1, h2, h3⟩ := ih ((c :: t).drop 80) l he
        exact ⟨h1, h2, fun x hx => List.drop_subset 80 (c :: t) (h3 x hx)⟩

theorem chunks_flatten (s : Str) : (chunks s).flatten = s :=
  chunksAux_flatten s.length s (le_refl _)

theorem chunks_mem (s : Str) (l : Str) (hl : l ∈ chunks s) :
    l ≠ [] ∧ l.length ≤ 80 ∧ ∀ c ∈ l, c ∈ s :=
  chunksAux_mem s.length s l hl

/-- A list whose characters are all non-whitespace is unchanged by
`rstrip`. -/
theorem rstrip_eq_self (l : Str) (h : ∀ c ∈ l, pyWS c = false) : rstrip l = l := by
  rw [rstrip]
  cases hrev : l.reverse with
  | nil =>
    rw [List.reverse_eq_nil_iff] at hrev
    rw [hrev]
    rfl
  | cons c t =>
    have hc : c ∈ l := by
      have : c ∈ l.reverse := by rw [hrev]; exact List.mem_cons_self c t
      exact List.mem_reverse.mp this
    rw [List.dropWhile_cons, h c hc]
    simp only [Bool.false_eq_true, if_false]
    rw [← hrev, List.reverse_reverse]

/-- A cleaned sequence line of non-whitespace characters is itself. -/
theorem cleanLine_eq_self (l : Str) (h : ∀ c ∈ l, pyWS c = false) : cleanLine l = l := by
  rw [cleanLine, rstrip_eq_self l h]
  refine List.filter_eq_self.mpr ?_
  intro c hc
  have hws := h c hc
  rw [pyWS] at hws
  simp only [Bool.or_eq_false_iff, decide_eq_false_iff_not] at hws
  simp only [Bool.and_eq_true, decide_eq_true_eq]
  exact ⟨hws.1.1.1.1.1, hws.1.1.2⟩

/-- The header line written for label `k` parses back to title `' ' :: k`
when the label does not end in whitespace. -/
theorem rstrip_header (k : Str) (c : Char) (hc : k.getLast? = some c)
    (hws : pyWS c = false) : rstrip (' ' :: k) = ' ' :: k := by
  rw [rstrip, List.reverse_cons]
  cases hrev : k.reverse with
  | nil =>
    rw [List.reverse_eq_nil_iff] at hrev
    rw [hrev] at hc
    cases hc
  | cons c' t =>
    have hcc : c' = c := by
      have h1 : k.reverse.head? = k.getLast? := List.head?_reverse k
      rw [hrev, hc] at h1
      exact Option.some.inj h1
    subst hcc
    rw [List.cons_append, List.dropWhile_cons, hws]
    simp only [Bool.false_eq_true, if_false]
    rw [← List.cons_append, ← hrev, ← List.reverse_cons, List.reverse_reverse]

/-- Sequence-chunk lines are passed through verbatim by the parser body,
accumulating onto the open record. -/
theorem parseFastaAux_chunks :
    ∀ (ls rest : List Str) (title acc : Str),
    (∀ l ∈ ls, l ≠ [] ∧ ∀ c ∈ l, pyWS c = false ∧ c ≠ '>') →
    parseFastaAux (ls ++ rest) title acc = parseFastaAux rest title (acc ++ ls.flatten) := by
  intro ls
  induction ls with
  | nil =>
    intro rest title acc _
    rw [List.nil_append, List.flatten_nil, List.append_nil]
  | cons l ls ih =>
    intro rest title acc hl
    obtain ⟨hne, hchars⟩ := hl l (List.mem_cons_self l ls)
    cases l with
    | nil => exact absurd rfl hne
    | cons c t =>
      have hcprop := hchars c (List.mem_cons_self c t)
      rw [List.cons_append, parseFastaAux]
      rw [if_neg (by
        simp only [List.head?_cons]
        intro h
        exact hcprop.2 (Option.some.inj h))]
      rw [ih rest title (acc ++ cleanLine (c :: t))
        (fun l' hl' => hl l' (List.mem_cons_of_mem (c :: t) hl'))]
      rw [cleanLine_eq_self (c :: t) (fun x hx => (hchars x hx).1)]
      rw [List.flatten_cons, ← List.append_assoc]

/-- The parser body over the serialized tail records. -/
theorem parseFastaAux_write :
    ∀ (m : OtuMap),
    (∀ p ∈ m, ∀ c ∈ p.2.sequence, pyWS c = false ∧ c ≠ '>') →
    (∀ p ∈ m, ∃ c, p.1.getLast? = some c ∧ pyWS c = false) →
    ∀ (title acc : Str),
    parseFastaAux (writeFasta m) title acc =
      (title, acc) :: m.map (fun p => (' ' :: p.1, p.2.sequence)) := by
  intro m
  induction m with
  | nil =>
    intro _ _ title acc
    rfl
  | cons p m' ih =>
    intro hseq hname title acc
    obtain ⟨c, hc, hcws⟩ := hname p (List.mem_cons_self p m')
    have hw : writeFasta (p :: m') =
        ('>' :: ' ' :: p.1) :: (chunks p.2.sequence ++ writeFasta m') := rfl
    rw [hw, parseFastaAux]
    rw [if_pos (by rw [List.head?_cons])]
    have htail : ('>' :: ' ' :: p.1).tail = ' ' :: p.1 := rfl
    rw [htail, rstrip_header p.1 c hc hcws]
    rw [parseFastaAux_chunks (chunks p.2.sequence) (writeFasta m') (' ' :: p.1) []
      (fun l hl => by
        obtain ⟨h1, _, h3⟩ := chunks_mem p.2.sequence l hl
        exact ⟨h1, fun x hx => hseq p (List.mem_cons_self p m') x (h3 x hx)⟩)]
    rw [List.nil_append, chunks_flatten]
    rw [ih (fun q hq => hseq q (List.mem_cons_of_mem p hq))
      (fun q hq => hname q (List.mem_cons_of_mem p hq)) (' ' :: p.1) p.2.sequence]
    rfl

/-- Serialize-then-parse on any dictionary whose sequence characters are
neither whitespace nor `'>'` and whose labels do not end in whitespace:
one parsed record per entry, in order, with title `' ' :: label` and the
stored sequence. -/
theorem write_roundtrip_map (m : OtuMap)
    (hseq : ∀ p ∈ m, ∀ c ∈ p.2.sequence, pyWS c = false ∧ c ≠ '>')
    (hname : ∀ p ∈ m, ∃ c, p.1.getLast? = some c ∧ pyWS c = false) :
    (∀ p ∈ m, (chunks p.2.sequence).flatten = p.2.sequence ∧
      ∀ l ∈ chunks p.2.sequence, l.length ≤ 80) ∧
    writeFasta m = m.flatMap (fun p => ('>' :: ' ' :: p.1) :: chunks p.2.sequence) ∧
    parseFasta (writeFasta m) = m.map (fun p => (' ' :: p.1, p.2.sequence)) := by
  refine ⟨?_, rfl, ?_⟩
  · intro p _
    exact ⟨chunks_flatten p.2.sequence,
           fun l hl => (chunks_mem p.2.sequence l hl).2.1⟩
  · cases m with
    | nil => rfl
    | cons p m' =>
      obtain ⟨c, hc, hcws⟩ := hname p (List.mem_cons_self p m')
      have hw : writeFasta (p :: m') =
          ('>' :: ' ' :: p.1) :: (chunks p.2.sequence ++ writeFasta m') := rfl
      rw [hw, parseFasta]
      rw [if_pos (by rw [List.head?_cons])]
      have htail : ('>' :: ' ' :: p.1).tail = ' ' :: p.1 := rfl
      rw [htail, rstrip_header p.1 c hc hcws]
      rw [parseFastaAux_chunks (chunks p.2.sequence) (writeFasta m') (' ' :: p.1) []
        (fun l hl => by
          obtain ⟨h1, _, h3⟩ := chunks_mem p.2.sequence l hl
          exact ⟨h1, fun x hx => hseq p (List.mem_cons_self p m') x (h3 x hx)⟩)]
      rw [List.nil_append, chunks_flatten]
      rw [parseFastaAux_write m'
        (fun q hq => hseq q (List.mem_cons_of_mem p hq))
        (fun q hq => hname q (List.mem_cons_of_mem p hq)) (' ' :: p.1) p.2.sequence]
      rfl

/-- A successful record loop never changes the key list. -/
theorem mergeRecords_keys :
    ∀ (rs : List SRecord) (st st' : FSt), mergeRecords st rs = .ok st' →
    keys st'.otus = keys st.otus := by
  intro rs
  induction rs with
  | nil =>
    intro st st' h
    cases h
    rfl
  | cons r rest ih =>
    intro st st' h
    rw [mergeRecords] at h
    cases hr : mergeRecord st r with
    | error e => rw [hr] at h; cases h
    | ok st1 =>
      rw [hr] at h
      rw [ih st1 st' h]
      rw [mergeRecord] at hr
      cases hko : otuOf r with
      | none => rw [hko] at hr; cases hr
      | some k0 =>
        rw [hko] at hr
        dsimp only at hr
        by_cases hmem : k0 ∈ st.already
        · rw [if_pos hmem] at hr
          cases hr
          rfl
        · rw [if_neg hmem] at hr
          by_cases hct : containsOtu st.otus k0 = true
          · rw [if_pos hct] at hr
            cases hr
            exact keys_mapSnd st.otus
              (fun s o => if s = k0 then
                o.update r.seq (accOf r) (get_ungapped_length r.seq) else o)
          · rw [if_neg hct] at hr
            cases hr

/-- A successful file merge never changes the key list. -/
theorem mergeFile_keys (st : MSt) (f : List SRecord) (st' : MSt)
    (h : mergeFile st f = .ok st') : keys st'.otus = keys st.otus := by
  rw [mergeFile] at h
  cases hr : mergeRecords ⟨st.otus, [], st.loci⟩ f with
  | error e => rw [hr] at h; cases h
  | ok fst =>
    rw [hr] at h
    dsimp only at h
    cases hl : fst.loci with
    | none => rw [hl] at h; cases h
    | some w =>
      rw [hl] at h
      cases h
      have h1 : keys fst.otus = keys st.otus := mergeRecords_keys f _ fst hr
      rw [← h1]
      exact keys_mapSnd fst.otus (fun _ o => postGap (st.total + w) w o)

/-- A successful merge pass never changes the key list. -/
theorem mergeFiles_keys :
    ∀ (files : List (List SRecord)) (st st' : MSt), mergeFiles st files = .ok st' →
    keys st'.otus = keys st.otus := by
  intro files
  induction files with
  | nil =>
    intro st st' h
    cases h
    rfl
  | cons f rest ih =>
    intro st st' h
    rw [mergeFiles] at h
    cases hf : mergeFile st f with
    | error e => rw [hf] at h; cases h
    | ok st1 =>
      rw [hf] at h
      rw [ih st1 st' h]
      exact mergeFile_keys st f st1 hf

/-- Claim C6: the serialization step writes, for every discovered taxon,
one record: a `"> "` header followed by the taxon's concatenated
sequence in lines of at most 80 characters whose concatenation equals
the sequence; re-parsing the written output as FASTA yields exactly one
record per discovered taxon label (in order, with pairwise-distinct
titles `' ' :: label`), each carrying exactly the merged sequence.
Hypotheses: sequence characters are neither whitespace nor `'>'`, and
labels do not end in whitespace — both hold for ordinary FASTA
alignment data. -/
theorem C6_serialization_roundtrip (files : List (List SRecord)) (m : OtuMap) (t : Nat)
    (hok : build files = .ok (m, t))
    (hseq : ∀ p ∈ m, ∀ c ∈ p.2.sequence, pyWS c = false ∧ c ≠ '>')
    (hname : ∀ p ∈ m, ∃ c, p.1.getLast? = some c ∧ pyWS c = false) :
    (∀ p ∈ m, (chunks p.2.sequence).flatten = p.2.sequence ∧
      ∀ l ∈ chunks p.2.sequence, l.length ≤ 80) ∧
    writeFasta m = m.flatMap (fun p => ('>' :: ' ' :: p.1) :: chunks p.2.sequence) ∧
    parseFasta (writeFasta m) = m.map (fun p => (' ' :: p.1, p.2.sequence)) ∧
    ((parseFasta (writeFasta m)).map Prod.fst).Nodup := by
  obtain ⟨h1, h2, h3⟩ := write_roundtrip_map m hseq hname
  refine ⟨h1, h2, h3, ?_⟩
  have hnd : (keys m).Nodup := by
    cases hdisc : discover files with
    | error e =>
      rw [build, hdisc] at hok
      cases hok
    | ok m0 =>
      rw [build, hdisc] at hok
      dsimp only at hok
      cases hmf : mergeFiles ⟨m0, 0, none⟩ files with
      | error e => rw [hmf] at hok; cases hok
      | ok st =>
        rw [hmf] at hok
        cases hok
        rw [mergeFiles_keys files _ st hmf]
        exact (discover_ok_props files m0 hdisc).2.2
  rw [h3, List.map_map]
  have : (Prod.fst ∘ fun p : Str × Otu => (' ' :: p.1, p.2.sequence)) =
      (fun c => ' ' :: c) ∘ Prod.fst := rfl
  rw [this, ← List.map_map]
  refine List.Nodup.map ?_ hnd
  intro a b hab
  exact List.cons.inj hab |>.2

/-- Claim C7 (amended: tokens are obtained by splitting on each single
space character, Python `split(" ")`, empty tokens preserved): whenever
the description splits into at least three such tokens, the taxon key is
token 1 and token 2 joined by one space, and the accession is token 0. -/
theorem C7_label_accession (r : SRecord) (t0 t1 t2 : Str) (rest : List Str)
    (h : splitSpace r.description = t0 :: t1 :: t2 :: rest) :
    otuOf r = some (t1 ++ ' ' :: t2) ∧ accOf r = t0 := by
  constructor
  · rw [otuOf, descriptors, h]
  · rw [accOf, descriptors, h]

/-- Characterization of the per-record statistics loop on records with
non-empty sequences. -/
theorem printDataLoop_ok :
    ∀ (recs : List (Str × Str)) (pcts : List ℚ) (num tg : Nat) (ml : Option Nat),
    (∀ p ∈ recs, p.2.length ≠ 0) →
    printDataLoop recs pcts num tg ml = .ok
      (pcts ++ recs.map (fun p => round2 ((gapCount p.2 : ℚ) / (p.2.length : ℚ))),
       num + recs.length,
       tg + (recs.map (fun p => gapCount p.2)).sum,
       recs.foldl (fun _ p => some p.2.length) ml) := by
  intro recs
  induction recs with
  | nil =>
    intro pcts num tg ml _
    simp [printDataLoop]
  | cons p rest ih =>
    intro pcts num tg ml hlen
    obtain ⟨t, s⟩ := p
    have hs : s.length ≠ 0 := hlen (t, s) (List.mem_cons_self _ rest)
    rw [printDataLoop, if_neg hs]
    rw [ih (pcts ++ [round2 ((gapCount s : ℚ) / (s.length : ℚ))]) (num + 1)
      (tg + gapCount s) (some s.length)
      (fun q hq => hlen q (List.mem_cons_of_mem (t, s) hq))]
    refine congrArg Except.ok ?_
    rw [List.map_cons, List.map_cons, List.sum_cons, List.append_assoc,
        List.singleton_append, List.length_cons, List.foldl_cons,
        Nat.add_assoc tg, show num + 1 + rest.length = num + (rest.length + 1) from by omega]

/-- The `matrix_length` local after the loop: the last record's length. -/
theorem foldl_lastLen :
    ∀ (l : List (Str × Str)) (w0 : Nat),
    ∃ L, List.foldl (fun _ p => some p.2.length) (some w0) l = some L ∧
      (L = w0 ∨ ∃ p ∈ l, L = p.2.length) := by
  intro l
  induction l with
  | nil => intro w0; exact ⟨w0, rfl, Or.inl rfl⟩
  | cons p rest ih =>
    intro w0
    obtain ⟨L, hL, hor⟩ := ih p.2.length
    refine ⟨L, by rw [List.foldl_cons]; exact hL, ?_⟩
    rcases hor with h | ⟨q, hq, hLq⟩
    · exact Or.inr ⟨p, List.mem_cons_self p rest, h⟩
    · exact Or.inr ⟨q, List.mem_cons_of_mem p hq, hLq⟩

theorem round2_half : round2 (1 / 2) = 1 / 2 := by
  have h1 : (100 : ℚ) * (1 / 2) = ((50 : ℤ) : ℚ) := by norm_num
  rw [round2, h1, roundHalfEven, Int.floor_intCast]
  norm_num

/-- Claim C9: for every record read back by the statistics report (all
with non-empty sequences), the per-taxon gap percentage is the record's
gap count divided by its sequence length, rounded to 2 decimals; in
particular a taxon whose row is half gaps — e.g. fully gapped at one of
two equal-width loci — reports exactly 0.5. -/
theorem C9_gap_percent (W : Nat) (hW : 0 < W) (t s : Str) (rest : List (Str × Str))
    (hlen : s.length = 2 * W) (hgap : gapCount s = W)
    (hrest : ∀ p ∈ rest, p.2.length ≠ 0) :
    ∃ rep : Report, print_data ((t, s) :: rest) = .ok rep ∧
      (∀ i p, ((t, s) :: rest).get? i = some p →
        rep.pcts.get? i = some (round2 ((gapCount p.2 : ℚ) / (p.2.length : ℚ)))) ∧
      rep.pcts.head? = some (1 / 2) := by
  have hall : ∀ p ∈ (t, s) :: rest, p.2.length ≠ 0 := by
    intro p hp
    rcases List.mem_cons.mp hp with he | he
    · rw [he]
      dsimp only
      omega
    · exact hrest p he
  have hloop := printDataLoop_ok ((t, s) :: rest) [] 0 0 none hall
  rw [List.foldl_cons] at hloop
  obtain ⟨L, hL, hor⟩ := foldl_lastLen rest s.length
  have hL0 : L ≠ 0 := by
    rcases hor with h | ⟨q, hq, hLq⟩
    · rw [h, hlen]; omega
    · rw [hLq]; exact hrest q hq
  rw [print_data, hloop, hL]
  dsimp only
  rw [if_neg (by
    intro h
    rcases Nat.mul_eq_zero.mp h with h' | h'
    · exact hL0 h'
    · rw [List.length_cons] at h'
      omega)]
  refine ⟨_, rfl, ?_, ?_⟩
  · intro i p hp
    dsimp only
    rw [List.nil_append, List.get?_map, hp]
    rfl
  · dsimp only
    rw [List.nil_append, List.map_cons, List.head?_cons]
    refine congrArg some ?_
    have : ((gapCount s : ℚ) / (s.length : ℚ)) = 1 / 2 := by
      rw [hgap, hlen]
      push_cast
      rw [div_eq_div_iff (by positivity) (by norm_num)]
      ring
    rw [this, round2_half]

/-- Claim C10: on a written supermatrix file with zero records, the
statistics report fails (the `matrix_length` local is never assigned, so
the summary raises `NameError`) instead of printing a summary. -/
theorem C10_empty_report :
    writeFasta [] = [] ∧ parseFasta [] = [] ∧
    print_data (parseFasta (writeFasta [])) = .error .nameError :=
  ⟨rfl, rfl, rfl⟩

/-- Counterexample to claim C2 as stated: both input files are non-empty
and width-consistent, but the second locus has aligned width 0 (a record
with an empty sequence), so the taxon absent from it receives no update
at all — its accession list stays at one entry after two loci. -/
theorem C2_counterexample :
    (∀ f ∈ [[(⟨"X1 Homo sapiens".toList, "A".toList⟩ : SRecord),
             ⟨"X2 Mus musculus".toList, "C".toList⟩],
            [⟨"X3 Homo sapiens".toList, []⟩]], f ≠ []) ∧
    (∀ f ∈ [[(⟨"X1 Homo sapiens".toList, "A".toList⟩ : SRecord),
             ⟨"X2 Mus musculus".toList, "C".toList⟩],
            [⟨"X3 Homo sapiens".toList, []⟩]], widthCons f) ∧
    build [[(⟨"X1 Homo sapiens".toList, "A".toList⟩ : SRecord),
            ⟨"X2 Mus musculus".toList, "C".toList⟩],
           [⟨"X3 Homo sapiens".toList, []⟩]] =
      .ok ([("Homo sapiens".toList,
              ⟨"Homo sapiens".toList, "A".toList,
               ["X1".toList, "X3".toList], [1, 0]⟩),
            ("Mus musculus".toList,
              ⟨"Mus musculus".toList, "C".toList, ["X2".toList], [1]⟩)], 1) ∧
    (["X2".toList] : List Str).length = 1 ∧ ¬ ((1 : Nat) = 2) :=
  ⟨by decide, by decide, by rfl, rfl, by decide⟩

/-- Counterexample to claim C3 as stated: the second locus file is
non-empty and width-consistent but has aligned width 0; the absent taxon
"Mus musculus" receives neither the placeholder accession `"-"` nor the
ungapped length `0` — its record is left completely untouched. -/
theorem C3_counterexample :
    (∀ f ∈ [[(⟨"Y1 Homo sapiens".toList, "A".toList⟩ : SRecord),
             ⟨"Y2 Mus musculus".toList, "C".toList⟩],
            [⟨"Y3 Homo sapiens".toList, []⟩]], f ≠ []) ∧
    (∀ f ∈ [[(⟨"Y1 Homo sapiens".toList, "A".toList⟩ : SRecord),
             ⟨"Y2 Mus musculus".toList, "C".toList⟩],
            [⟨"Y3 Homo sapiens".toList, []⟩]], widthCons f) ∧
    (∀ r ∈ [(⟨"Y3 Homo sapiens".toList, []⟩ : SRecord)],
      otuOf r ≠ some ("Mus musculus".toList)) ∧
    build [[(⟨"Y1 Homo sapiens".toList, "A".toList⟩ : SRecord),
            ⟨"Y2 Mus musculus".toList, "C".toList⟩],
           [⟨"Y3 Homo sapiens".toList, []⟩]] =
      .ok ([("Homo sapiens".toList,
              ⟨"Homo sapiens".toList, "A".toList,
               ["Y1".toList, "Y3".toList], [1, 0]⟩),
            ("Mus musculus".toList,
              ⟨"Mus musculus".toList, "C".toList, ["Y2".toList], [1]⟩)], 1) ∧
    ¬ (lookupOtu [("Homo sapiens".toList,
          (⟨"Homo sapiens".toList, "A".toList,
            ["Y1".toList, "Y3".toList], [1, 0]⟩ : Otu)),
        ("Mus musculus".toList,
          ⟨"Mus musculus".toList, "C".toList, ["Y2".toList], [1]⟩)]
        ("Mus musculus".toList) =
      some ⟨"Mus musculus".toList, "C".toList,
            ["Y2".toList, ['-']], [1, 0]⟩) :=
  ⟨by decide, by decide, by decide, by rfl, by decide⟩

/-- Counterexample to claim C5 as stated: one non-empty width-consistent
locus file whose single record is entirely gap characters.  The stored
ungapped length is `0`, yet the stored accession is `"A1"`, not `"-"`,
so `sequence_lengths[i] = 0` does not imply `accessions[i] = "-"`. -/
theorem C5_counterexample :
    (∀ f ∈ [[(⟨"A1 Homo sapiens".toList, "--".toList⟩ : SRecord)]], f ≠ []) ∧
    (∀ f ∈ [[(⟨"A1 Homo sapiens".toList, "--".toList⟩ : SRecord)]], widthCons f) ∧
    build [[(⟨"A1 Homo sapiens".toList, "--".toList⟩ : SRecord)]] =
      .ok ([("Homo sapiens".toList,
              ⟨"Homo sapiens".toList, "--".toList, ["A1".toList], [0]⟩)], 2) ∧
    ([(0 : Nat)].get? 0 = some 0) ∧
    ¬ (["A1".toList].get? 0 = some ['-']) :=
  ⟨by decide, by decide, by rfl, rfl, by decide⟩

/-- Counterexample to claim C7 as stated: a description with two
consecutive spaces has whitespace-separated tokens
`["A1", "Homo", "sapiens"]` (three of them), but the key actually used
by the code is `split(" ")` based and equals `" Homo"`, not
`"Homo sapiens"`. -/
theorem C7_counterexample :
    wsTokens ("A1  Homo sapiens".toList) =
      ["A1".toList, "Homo".toList, "sapiens".toList] ∧
    otuOf ⟨"A1  Homo sapiens".toList, "G".toList⟩ = some (" Homo".toList) ∧
    ¬ ((" Homo".toList : Str) = "Homo".toList ++ ' ' :: "sapiens".toList) :=
  ⟨by rfl, by rfl, by decide⟩

/-- Counterexample to claim C8 as stated: an input list consisting of a
single zero-record locus file makes the build raise (the `loci_length`
local is read while still unbound — Python `NameError`), so "the build
raises no error" fails. -/
theorem C8_counterexample :
    (∃ f ∈ [([] : List SRecord)], f = []) ∧
    build [([] : List SRecord)] = .error .nameError :=
  ⟨by decide, by rfl⟩

/-- Witness for C1 at a concrete input: a one-locus build whose single
row has length equal to the file's aligned width. -/
theorem C1_length_invariant_witness :
    (2 : Nat) = ([[(⟨"A1 Homo sapiens".toList, "AC".toList⟩ : SRecord)]].map fileWidth).sum ∧
    ("AC".toList : Str).length =
      ([[(⟨"A1 Homo sapiens".toList, "AC".toList⟩ : SRecord)]].map fileWidth).sum :=
  have h := C1_length_invariant [[⟨"A1 Homo sapiens".toList, "AC".toList⟩]]
    [("Homo sapiens".toList,
      ⟨"Homo sapiens".toList, "AC".toList, ["A1".toList], [2]⟩)] 2
    (by decide) (by decide) (by rfl)
  ⟨h.1, h.2 ("Homo sapiens".toList,
    ⟨"Homo sapiens".toList, "AC".toList, ["A1".toList], [2]⟩) (by decide)⟩

/-- Witness for C2 (amended) at a concrete input: merging the single
locus file adds exactly one accession and one width's worth of sequence. -/
theorem C2_one_update_per_locus_witness :
    (1 : Nat) = 0 +
      fileWidth ([[(⟨"A1 Homo sapiens".toList, "G".toList⟩ : SRecord)]].get ⟨0, by decide⟩) ∧
    (⟨"Homo sapiens".toList, "G".toList, ["A1".toList], [1]⟩ : Otu).accessions.length =
      (freshOtu ("Homo sapiens".toList)).accessions.length + 1 :=
  have h := C2_one_update_per_locus [[⟨"A1 Homo sapiens".toList, "G".toList⟩]] 0 (by decide)
    ⟨[("Homo sapiens".toList, freshOtu ("Homo sapiens".toList))], 0, none⟩
    ⟨[("Homo sapiens".toList,
        ⟨"Homo sapiens".toList, "G".toList, ["A1".toList], [1]⟩)], 1, some 1⟩
    (by decide) (by decide) (by decide) (by rfl) (by rfl)
  ⟨h.2.1, (h.2.2 0 (by decide) (by decide)).2.1⟩

/-- Witness for C3 (amended) at a concrete input: the taxon absent from
the second locus receives exactly the gap segment, the placeholder
accession and a zero length. -/
theorem C3_gap_fill_witness :
    lookupOtu [("Homo sapiens".toList,
        (⟨"Homo sapiens".toList, "GC".toList, ["A1".toList, "A3".toList], [1, 1]⟩ : Otu)),
      ("Mus musculus".toList,
        ⟨"Mus musculus".toList, "T-".toList, ["A2".toList, ['-']], [1, 0]⟩)]
      ("Mus musculus".toList) =
    some ⟨"Mus musculus".toList, "T-".toList, ["A2".toList, ['-']], [1, 0]⟩ :=
  C3_gap_fill
    [[⟨"A1 Homo sapiens".toList, "G".toList⟩, ⟨"A2 Mus musculus".toList, "T".toList⟩],
     [⟨"A3 Homo sapiens".toList, "C".toList⟩]] 1 (by decide)
    ⟨[("Homo sapiens".toList, ⟨"Homo sapiens".toList, "G".toList, ["A1".toList], [1]⟩),
      ("Mus musculus".toList, ⟨"Mus musculus".toList, "T".toList, ["A2".toList], [1]⟩)],
     1, some 1⟩
    ⟨[("Homo sapiens".toList,
        ⟨"Homo sapiens".toList, "GC".toList, ["A1".toList, "A3".toList], [1, 1]⟩),
      ("Mus musculus".toList,
        ⟨"Mus musculus".toList, "T-".toList, ["A2".toList, ['-']], [1, 0]⟩)],
     2, some 1⟩
    ("Mus musculus".toList)
    ⟨"Mus musculus".toList, "T".toList, ["A2".toList], [1]⟩
    (by decide) (by decide) (by decide) (by decide) (by rfl) (by rfl) (by rfl)

/-- Witness for C4 at a concrete input: a second same-taxon record in a
file leaves the dictionary and `already_added` unchanged. -/
theorem C4_first_record_wins_witness :
    mergeRecord ⟨[("Homo sapiens".toList,
        (⟨"Homo sapiens".toList, "G".toList, ["A1".toList], [1]⟩ : Otu))],
      ["Homo sapiens".toList], some 1⟩
      ⟨"A2 Homo sapiens".toList, "C".toList⟩ =
    .ok ⟨[("Homo sapiens".toList,
        ⟨"Homo sapiens".toList, "G".toList, ["A1".toList], [1]⟩)],
      ["Homo sapiens".toList], some 1⟩ :=
  C4_first_record_wins [("Homo sapiens".toList, freshOtu ("Homo sapiens".toList))] none
    [⟨"A1 Homo sapiens".toList, "G".toList⟩]
    ⟨"A2 Homo sapiens".toList, "C".toList⟩
    ⟨"A1 Homo sapiens".toList, "G".toList⟩
    ("Homo sapiens".toList)
    ⟨[("Homo sapiens".toList,
        ⟨"Homo sapiens".toList, "G".toList, ["A1".toList], [1]⟩)],
      ["Homo sapiens".toList], some 1⟩
    (by decide) (by rfl) (by rfl) (by rfl)

/-- Witness for C5 (amended) at a concrete input: one locus, one taxon,
paired provenance lists of length one. -/
theorem C5_parallel_provenance_witness :
    (["A1".toList] : List Str).length = 1 ∧
    ([1] : List Nat).length = 1 ∧
    ∀ i, (([1] : List Nat).get? i = some 0 ↔
      (["A1".toList] : List Str).get? i = some ['-']) :=
  have h := C5_parallel_provenance [[⟨"A1 Homo sapiens".toList, "G".toList⟩]]
    [("Homo sapiens".toList,
      ⟨"Homo sapiens".toList, "G".toList, ["A1".toList], [1]⟩)] 1
    (by decide) (by decide) (by decide) (by decide) (by decide) (by rfl)
  h ("Homo sapiens".toList,
    ⟨"Homo sapiens".toList, "G".toList, ["A1".toList], [1]⟩) (by decide)

/-- Witness for C6 at a concrete input: writing and re-parsing a
one-taxon matrix round-trips to one record with the merged sequence. -/
theorem C6_serialization_roundtrip_witness :
    parseFasta (writeFasta [("Homo sapiens".toList,
        (⟨"Homo sapiens".toList, "AC".toList, ["A1".toList], [2]⟩ : Otu))]) =
      [(' ' :: "Homo sapiens".toList, "AC".toList)] ∧
    ((parseFasta (writeFasta [("Homo sapiens".toList,
        (⟨"Homo sapiens".toList, "AC".toList, ["A1".toList], [2]⟩ : Otu))])).map
      Prod.fst).Nodup :=
  have h := C6_serialization_roundtrip [[⟨"A1 Homo sapiens".toList, "AC".toList⟩]]
    [("Homo sapiens".toList,
      ⟨"Homo sapiens".toList, "AC".toList, ["A1".toList], [2]⟩)] 2
    (by rfl)
    (by decide)
    (fun p hp => by
      rw [List.mem_singleton] at hp
      subst hp
      exact ⟨'s', rfl, rfl⟩)
  ⟨h.2.2.1, h.2.2.2⟩

/-- Witness for C7 (amended) at a concrete input: a three-token
description yields key token1-space-token2 and accession token0. -/
theorem C7_label_accession_witness :
    splitSpace ("A1 Homo sapiens".toList) =
      "A1".toList :: "Homo".toList :: "sapiens".toList :: [] ∧
    (otuOf ⟨"A1 Homo sapiens".toList, "G".toList⟩ =
      some ("Homo".toList ++ ' ' :: "sapiens".toList) ∧
     accOf ⟨"A1 Homo sapiens".toList, "G".toList⟩ = "A1".toList) :=
  ⟨rfl, C7_label_accession ⟨"A1 Homo sapiens".toList, "G".toList⟩
    ("A1".toList) ("Homo".toList) ("sapiens".toList) [] rfl⟩

/-- Witness for C8 (amended) at a concrete input: one real locus followed
by a zero-record file; the whole build succeeds with equal row lengths. -/
theorem C8_empty_file_tolerated_witness :
    ∃ st : MSt,
      buildState [[(⟨"A1 Homo sapiens".toList, "G".toList⟩ : SRecord)], []] 2 = .ok st ∧
      ∀ p ∈ st.otus, ∀ q ∈ st.otus, p.2.sequence.length = q.2.sequence.length :=
  C8_empty_file_tolerated [[⟨"A1 Homo sapiens".toList, "G".toList⟩], []]
    (by decide) (by decide) (by decide) (by decide) 2

/-- Witness for C9 at a concrete input: a single record that is half gap
characters reports exactly one half. -/
theorem C9_gap_percent_witness :
    ∃ rep : Report,
      print_data [("Homo sapiens".toList, "-A".toList)] = .ok rep ∧
      (∀ i p, ([("Homo sapiens".toList, "-A".toList)] : List (Str × Str)).get? i = some p →
        rep.pcts.get? i = some (round2 ((gapCount p.2 : ℚ) / (p.2.length : ℚ)))) ∧
      rep.pcts.head? = some (1 / 2) :=
  C9_gap_percent 1 (by decide) ("Homo sapiens".toList) ("-A".toList) []
    (by rfl) (by rfl) (by decide)
